import Mathlib

/-!
# go-rocket-update: the BitBucket provider, the file helpers and the updater contract

A shallow embedding of `pkg/provider/provider_bitbucket.go` and `helper/helper.go`, and a
model of the update engine (`Update`, `Rollback`) and of the version comparison after the
specification, for the properties that `pkg/updater/updater_test.go` exercises.

Conventions of the embedding.

* A Go `string` is a Lean `String`; the regular expression of `repositoryInfo` works on
  its characters (for valid UTF-8 text the rune view of Go's `regexp` and the character
  view coincide).
* A Go `error` result is an `Option Error` (`none` is `nil`); a `(T, error)` result is an
  `Except Error T`.
* Everything outside the repository (the network, the JSON decoder, `filepath.Join`,
  the hash function, I/O faults) is a field of an environment record that the
  operations take as a parameter.
* The disk is an explicit value of type `FS` that is passed through the operations. A
  handle names its temp directory and its archive by the strings it has built itself;
  the helpers take arbitrary paths, which the environment resolves to the location of
  the file they name, so that two spellings of one file are one file.
* The inner provider of a handle is a parameter: its methods are a field of the
  environment, and the directories it holds on disk are given by `HoldsScratch`.
-/

namespace RocketUpdate

/-! ## Errors, bytes and the disk -/

/-- Byte contents of a file or of an HTTP body. -/
abbrev Bytes := List UInt8

/-- Go error values: the sentinel `ErrNotOpenned` of the provider package, and errors
built with `errors.New` or returned by the standard library (identified by their text). -/
inductive Error where
  | ErrNotOpenned : Error
  | new (text : String) : Error
deriving DecidableEq, Repr

deriving instance DecidableEq for Except

/-- Result of a call that may dereference a nil interface value: either the call returns,
or the goroutine panics with a nil pointer dereference. -/
inductive Outcome (α : Type) where
  | ret (a : α) : Outcome α
  | nilDereference : Outcome α
deriving DecidableEq, Repr

/-- The disk: the directories that exist and the regular files with their contents
(an association list, first binding of a path wins). -/
structure FS where
  dirs : List String
  files : List (String × Bytes)
deriving DecidableEq, Repr

/-- Contents of the regular file at `path`, if there is one. -/
def FS.read (fs : FS) (path : String) : Option Bytes :=
  fs.files.lookup path

/-- The file `path` exists. -/
def FS.fileExists (fs : FS) (path : String) : Bool :=
  (fs.read path).isSome

/-- Replace (or create) the file `path` with contents `b`. -/
def FS.write (fs : FS) (path : String) (b : Bytes) : FS :=
  { fs with files := (path, b) :: fs.files.filter (fun e => e.1 ≠ path) }

/-- Remove the file `path`. -/
def FS.remove (fs : FS) (path : String) : FS :=
  { fs with files := fs.files.filter (fun e => e.1 ≠ path) }

/-- The path `p` is `dir` itself or lies beneath it. -/
def isUnder (dir p : String) : Bool :=
  p = dir || (dir.data ++ ['/']).isPrefixOf p.data

/-- Effect of `os.RemoveAll(dir)`: the directory and everything beneath it is gone.
The Go code ignores the error of `os.RemoveAll`; the embedding takes the removal to
be effective. -/
def os_RemoveAll (fs : FS) (dir : String) : FS :=
  { dirs := fs.dirs.filter (fun d => !isUnder dir d),
    files := fs.files.filter (fun e => !isUnder dir e.1) }

/-! ## provider_bitbucket.go: URL handling -/

/-- Struct `bitbucketRepositoryInfo`. -/
structure bitbucketRepositoryInfo where
  RepositoryOwner : String
  RepositoryName : String
deriving DecidableEq, Repr

/-- Struct `bitbucketTag`. -/
structure bitbucketTag where
  Name : String
deriving DecidableEq, Repr

/-- The literal part `bitbucket\.org/` of the pattern of `repositoryInfo`. -/
def bitbucketHost : List Char := "bitbucket.org/".data

/-- If `s` starts with `lit`, the rest of `s` after it. -/
def dropLit : List Char → List Char → Option (List Char)
  | [], s => some s
  | _ :: _, [] => none
  | a :: lit, b :: s => if a = b then dropLit lit s else none

/-- The tail `(.*?)$` of the pattern: the group may stop only at the end of the text
(`$` without the `m` flag), and `.` consumes any character but a newline. -/
def matchName : List Char → Option (List Char)
  | [] => some []
  | ch :: rest => if ch = '\n' then none else (matchName rest).map (fun n => ch :: n)

/-- The part `(.*?)/(.*?)$` of the pattern, with the lazy first group: at every position
the matcher first tries to end the group (a `/` must follow, then the tail must match);
only when that fails it lets `.` consume the current character (any but a newline). -/
def matchOwner : List Char → Option (List Char × List Char)
  | [] => none
  | ch :: rest =>
    match (if ch = '/' then (matchName rest).map (fun n => (([] : List Char), n)) else none) with
    | some r => some r
    | none =>
      if ch = '\n' then none
      else (matchOwner rest).map (fun r => (ch :: r.1, r.2))

/-- The whole pattern tried at the start of `s`. -/
def matchAt (s : List Char) : Option (List Char × List Char) :=
  (dropLit bitbucketHost s).bind matchOwner

/-- The call `re.FindAllStringSubmatch(url, 1)`: the leftmost match, start positions
tried from left to right; the result holds the two capture groups. -/
def findSubmatch : List Char → Option (List Char × List Char)
  | [] => matchAt []
  | ch :: rest =>
    match matchAt (ch :: rest) with
    | some r => some r
    | none => findSubmatch rest

/-- The public fields of struct `BitBucket` and its private state; `σ` is the type of
the states of the inner decompress provider, `none` is the nil interface value. -/
structure BitBucket (σ : Type) where
  RepositoryURL : String
  ArchiveName : String
  tmpDir : String
  decompressProvider : Option σ
  archivePath : String

/-- A handle as the caller builds it, `&BitBucket{RepositoryURL: .., ArchiveName: ..}`; the
private fields have their zero values. -/
def BitBucket.mk0 (σ : Type) (url archive : String) : BitBucket σ :=
  { RepositoryURL := url, ArchiveName := archive, tmpDir := "",
    decompressProvider := none, archivePath := "" }

/-- Method `repositoryInfo`. -/
def BitBucket.repositoryInfo {σ : Type} (c : BitBucket σ) : Except Error bitbucketRepositoryInfo :=
  match findSubmatch c.RepositoryURL.data with
  | none => .error (Error.new ("Invalid BitBucket URL: " ++ c.RepositoryURL))
  | some (owner, name) =>
    .ok { RepositoryOwner := String.mk owner, RepositoryName := String.mk name }

/-- Method `getTagsUrl`. -/
def BitBucket.getTagsUrl {σ : Type} (c : BitBucket σ) : Except Error String :=
  match c.repositoryInfo with
  | .error err => .error err
  | .ok info =>
    .ok ("https://api.bitbucket.org/2.0/repositories/" ++ info.RepositoryOwner ++ "/"
          ++ info.RepositoryName ++ "/refs/tags?sort=target.date")

/-- Method `getArchiveUrl`. -/
def BitBucket.getArchiveUrl {σ : Type} (c : BitBucket σ) : Except Error String :=
  match c.repositoryInfo with
  | .error err => .error err
  | .ok info =>
    .ok ("https://bitbucket.org/" ++ info.RepositoryOwner ++ "/" ++ info.RepositoryName
          ++ "/downloads/" ++ c.ArchiveName)

/-! ### The reading of the URL in the words of the specification -/

/-- The text after the first occurrence of `lit` in `s`. -/
def afterFirst (lit : List Char) : List Char → Option (List Char)
  | [] => dropLit lit []
  | ch :: rest =>
    match dropLit lit (ch :: rest) with
    | some r => some r
    | none => afterFirst lit rest

/-- The text before the first `/` of `s` and the text after it. -/
def splitAtSlash : List Char → Option (List Char × List Char)
  | [] => none
  | ch :: rest =>
    if ch = '/' then some ([], rest)
    else (splitAtSlash rest).map (fun r => (ch :: r.1, r.2))

/-- Owner and name as the specification words them: the owner is the text between the
first `bitbucket.org/` and the next `/`, the name is everything after that `/`. -/
def specOwnerName (url : List Char) : Option (List Char × List Char) :=
  (afterFirst bitbucketHost url).bind splitAtSlash

/-! ## provider_bitbucket.go: the environment of a handle -/

/-- An entry handed to the visit function (type `FileInfo` of the provider package): the
path relative to the archive root and the file mode. -/
structure FileInfo where
  Path : String
  Mode : Nat
deriving DecidableEq, Repr

/-- Go's `FileMode.IsDir`: the bit `os.ModeDir = 1 << 31` is set. -/
def FileMode.IsDir (m : Nat) : Bool :=
  m / 2 ^ 31 % 2 = 1

/-- Type `WalkFunc`, `func(info *FileInfo) error`; `τ` is the state of the caller that
the function may read and change. -/
abbrev WalkFunc (τ : Type) := FileInfo → τ → Option Error × τ

/-- What `http.Get` hands back when it returns no error: the bytes of the body that can
be read, and the error that ends the reading, if any. -/
structure Response where
  body : Bytes
  copyErr : Option Error
deriving DecidableEq, Repr

/-- The methods of the inner provider (interface `Provider`) that `BitBucket` calls, over
the states `σ` of the provider object: `Open` reads the disk, `Retrieve` writes `dest`.
The directories that the object creates on disk are given by `HoldsScratch.scratch`. -/
structure Provider (σ : Type) where
  Open : σ → FS → Option Error × σ
  Close : σ → Option Error × σ
  Walk : σ → (τ : Type) → WalkFunc τ → τ → Option Error × σ × τ
  Retrieve : σ → String → String → FS → Option Error × σ × FS

/-- Modelled from the spec: the scratch directories of a provider object (the inner
providers are not part of the sources at hand). `scratch p` lists the directories that
the object in state `p` holds on disk: its `Open` acquires them (an archive that has to
be unpacked, such as a `.tar.gz`, gets a directory of its own; a `.zip` is read in place
and holds none), and its `Close` releases every one of them. Scratch directories are
owned exclusively by the provider that created them. -/
class HoldsScratch (σ : Type) where
  scratch : σ → List String

/-- The disk once the directories `ds` have been created on it (those that exist already
are left as they are). The files unpacked beneath them are not tracked. -/
def holdDirs (fs : FS) (ds : List String) : FS :=
  { fs with dirs := ds.filter (fun d => d ∉ fs.dirs) ++ fs.dirs }

/-- The disk once the directories `ds` have been removed with everything beneath them. -/
def releaseDirs (fs : FS) (ds : List String) : FS :=
  ds.foldl os_RemoveAll fs

/-- Everything a `BitBucket` handle calls outside of `provider_bitbucket.go`.

* `httpGet url`: `http.Get(url)`;
* `decodeTags resp`: `json.NewDecoder(resp.Body).Decode(&tagResponse)` followed by
  `tagResponse.Values`;
* `tempName`: the name the system proposes for a new temporary directory, or the error
  of `fileio.TempDir`;
* `Join`: `filepath.Join`;
* `createErr path`: the error of `os.Create(path)`, if it fails;
* `Decompress path`: `provider.Decompress(path)`, which returns a provider for the
  archive or an error (and then no provider);
* `inner`: the methods of the provider that `Decompress` returns. -/
structure Env (σ : Type) where
  httpGet : String → Except Error Response
  decodeTags : Response → Except Error (List bitbucketTag)
  tempName : Except Error String
  Join : String → String → String
  createErr : String → Option Error
  Decompress : String → Except Error σ
  inner : Provider σ

/-- Modelled from the spec: `fileio.TempDir` (package `internal/fileio` is not part of the
sources at hand) acquires a fresh directory. The proposed name must be non-empty and
must not exist yet, then the directory is created; on failure the name returned is
empty, as `ioutil.TempDir` does. -/
def fileio_TempDir {σ : Type} (env : Env σ) (fs : FS) : String × Option Error × FS :=
  match env.tempName with
  | .error err => ("", some err, fs)
  | .ok d =>
    if d = "" ∨ d ∈ fs.dirs then ("", some (Error.new "mkdir: file exists"), fs)
    else (d, none, { fs with dirs := d :: fs.dirs })

/-- The call `os.Create(path)`: the file is created, or truncated when it exists. -/
def os_Create {σ : Type} (env : Env σ) (fs : FS) (path : String) : Except Error FS :=
  match env.createErr path with
  | some err => .error err
  | none => .ok (fs.write path [])

/-- The call `io.Copy(archiveFile, resp.Body)`: the readable bytes of the body reach the
file; the error that ended the reading is returned. -/
def io_Copy (fs : FS) (path : String) (resp : Response) : Option Error × FS :=
  (resp.copyErr, fs.write path resp.body)

/-! ## provider_bitbucket.go: the methods -/

/-- Method `getTags`. -/
def BitBucket.getTags {σ : Type} (env : Env σ) (c : BitBucket σ) :
    Except Error (List bitbucketTag) :=
  match c.getTagsUrl with
  | .error err => .error err
  | .ok url =>
    match env.httpGet url with
    | .error err => .error err
    | .ok resp =>
      match env.decodeTags resp with
      | .error err => .error err
      | .ok values => .ok values

/-- Method `GetLatestVersion`. -/
def BitBucket.GetLatestVersion {σ : Type} (env : Env σ) (c : BitBucket σ) :
    Except Error String :=
  match c.getTags env with
  | .error err => .error err
  | .ok tags =>
    match tags with
    | [] => .error (Error.new "no tags found in this BitBucket repository")
    | t :: _ => .ok t.Name

/-- Method `Open`. The result is the returned error, the handle and the disk after
the call; the disk holds the temp directory of the handle and, once the inner provider's
`Open` has run, the scratch directories of that provider. -/
def BitBucket.Open {σ : Type} [HoldsScratch σ] (env : Env σ) (c : BitBucket σ) (fs : FS) :
    Option Error × BitBucket σ × FS :=
  match c.getArchiveUrl with
  | .error err => (some err, c, fs)
  | .ok archiveUrl =>
    match env.httpGet archiveUrl with
    | .error err => (some err, c, fs)
    | .ok resp =>
      match fileio_TempDir env fs with
      | (d, some err, fs1) => (some err, { c with tmpDir := d }, fs1)
      | (d, none, fs1) =>
        let c1 : BitBucket σ := { c with tmpDir := d, archivePath := env.Join d c.ArchiveName }
        match os_Create env fs1 c1.archivePath with
        | .error err => (some err, c1, fs1)
        | .ok fs2 =>
          match io_Copy fs2 c1.archivePath resp with
          | (some err, fs3) => (some err, c1, fs3)
          | (none, fs3) =>
            match env.Decompress c1.archivePath with
            | .error err => (some err, { c1 with decompressProvider := none }, fs3)
            | .ok p =>
              let r := env.inner.Open p fs3
              (r.1, { c1 with decompressProvider := some r.2 },
                holdDirs fs3 (HoldsScratch.scratch r.2))

/-- Method `Close`. The inner `Close` runs first and releases the scratch directories of
the provider object; its result is dropped, as in the source, and the handle lets go of
the object. Then the temp directory of the handle is removed. -/
def BitBucket.Close {σ : Type} [HoldsScratch σ] (env : Env σ) (c : BitBucket σ) (fs : FS) :
    Option Error × BitBucket σ × FS :=
  let r : BitBucket σ × FS :=
    match c.decompressProvider with
    | some p =>
      let _closed := env.inner.Close p
      ({ c with decompressProvider := none }, releaseDirs fs (HoldsScratch.scratch p))
    | none => (c, fs)
  if r.1.tmpDir.length > 0 then
    (none, { r.1 with tmpDir := "", archivePath := "" }, os_RemoveAll r.2 r.1.tmpDir)
  else (none, r.1, r.2)

/-- The disk after the inner `Close` of a handle. -/
def afterInnerClose {σ : Type} [HoldsScratch σ] (c : BitBucket σ) (fs : FS) : FS :=
  match c.decompressProvider with
  | some p => releaseDirs fs (HoldsScratch.scratch p)
  | none => fs

/-- Method `Walk`. The result is the returned error, the handle and the state of the
caller after the call. -/
def BitBucket.Walk {σ : Type} (env : Env σ) (c : BitBucket σ) (τ : Type) (walkFn : WalkFunc τ)
    (t : τ) : Option Error × BitBucket σ × τ :=
  match c.decompressProvider with
  | none => (some Error.ErrNotOpenned, c, t)
  | some p =>
    let r := env.inner.Walk p τ walkFn t
    (r.1, { c with decompressProvider := some r.2.1 }, r.2.2)

/-- Method `Retrieve`. There is no nil check: on a nil `decompressProvider` the method
call dereferences a nil interface value. -/
def BitBucket.Retrieve {σ : Type} (env : Env σ) (c : BitBucket σ) (src dest : String) (fs : FS) :
    Outcome (Option Error × BitBucket σ × FS) :=
  match c.decompressProvider with
  | none => .nilDereference
  | some p =>
    let r := env.inner.Retrieve p src dest fs
    .ret (r.1, { c with decompressProvider := some r.2.1 }, r.2.2)

/-- A visit function instrumented with a counter of its invocations. -/
def counting {τ : Type} (walkFn : WalkFunc τ) : WalkFunc (τ × Nat) :=
  fun info s => ((walkFn info s.1).1, ((walkFn info s.1).2, s.2 + 1))

/-! ## helper.go -/

/-- Everything `helper.go` calls outside of the repository.

* `resolve path`: the location of the file that `path` names, once `.` and `..`
  segments, repeated separators and links are resolved. Two paths name the same file
  exactly when they resolve to the same location; the disk is keyed by locations;
* `Dir loc`: `filepath.Dir`, the directory that holds the location `loc`;
* `openErr path`: the error of `os.Open(path)` on an existing path, if it fails (no read
  permission, for one);
* `createErr path`: the error of `os.Create(path)`, if it fails for another reason than
  a missing parent directory or a directory in the way;
* `copyErr`: `io.Copy` fails with this error after that many bytes went through;
* `syncErr`: the error of `out.Sync()`, if it fails;
* `sha256`: the digest `sha256.New()` computes over the bytes written to it;
* `hexEncode`: `hex.EncodeToString`. -/
structure HelperEnv where
  resolve : String → String
  Dir : String → String
  openErr : String → Option Error
  createErr : String → Option Error
  copyErr : Option (Nat × Error)
  syncErr : Option Error
  sha256 : Bytes → Bytes
  hexEncode : Bytes → String

/-- The call `os.Open(path)`: it fails when nothing exists at the location of `path`. -/
def HelperEnv.os_Open (env : HelperEnv) (fs : FS) (path : String) : Option Error :=
  if fs.fileExists (env.resolve path) ∨ env.resolve path ∈ fs.dirs then env.openErr path
  else some (Error.new ("open " ++ path ++ ": no such file or directory"))

/-- The call `os.Create(path)` of the helpers: it fails on a directory, and on a new file
whose parent directory does not exist; otherwise the file at the location of `path` is
created, or truncated when it exists. -/
def HelperEnv.os_Create (env : HelperEnv) (fs : FS) (path : String) : Except Error FS :=
  if env.resolve path ∈ fs.dirs then .error (Error.new ("open " ++ path ++ ": is a directory"))
  else if fs.fileExists (env.resolve path) = false ∧ env.Dir (env.resolve path) ∉ fs.dirs then
    .error (Error.new ("open " ++ path ++ ": no such file or directory"))
  else
    match env.createErr path with
    | some err => .error err
    | none => .ok (fs.write (env.resolve path) [])

/-- Function `CopyFile`. The source is opened first, then the destination is created
(truncated), and only then `io.Copy` reads the source: it reads what the source file
holds at that moment. -/
def CopyFile (env : HelperEnv) (fs : FS) (src dest : String) : Option Error × FS :=
  match env.os_Open fs src with
  | some err => (some err, fs)
  | none =>
    match env.os_Create fs dest with
    | .error err => (some err, fs)
    | .ok fs1 =>
      match fs1.read (env.resolve src) with
      | none => (some (Error.new ("read " ++ src ++ ": is a directory")), fs1)
      | some data =>
        match env.copyErr with
        | some (n, err) => (some err, fs1.write (env.resolve dest) (data.take n))
        | none => (env.syncErr, fs1.write (env.resolve dest) data)

/-- Function `ChecksumFile`. -/
def ChecksumFile (env : HelperEnv) (fs : FS) (src : String) : Except Error String :=
  match env.os_Open fs src with
  | some err => .error err
  | none =>
    match fs.read (env.resolve src) with
    | none => .error (Error.new ("read " ++ src ++ ": is a directory"))
    | some data =>
      match env.copyErr with
      | some (_, err) => .error err
      | none => .ok (env.hexEncode (env.sha256 data))

/-! ## Version comparison (specification, sections 3 and 4.4) -/

/-- A parsed version: the numeric components and the optional pre-release suffix. -/
structure Version where
  components : List Nat
  suffix : Option (List Char)
deriving DecidableEq, Repr

/-- Value of a non-empty run of decimal digits. -/
def parseNumber (s : List Char) : Option Nat :=
  if s ≠ [] ∧ s.all Char.isDigit then
    some (s.foldl (fun acc ch => 10 * acc + (ch.toNat - '0'.toNat)) 0)
  else none

/-- The pieces of `s` between the occurrences of `sep`. -/
def splitOnChar (sep : Char) : List Char → List (List Char)
  | [] => [[]]
  | ch :: rest =>
    if ch = sep then [] :: splitOnChar sep rest
    else
      match splitOnChar sep rest with
      | [] => [[ch]]
      | piece :: pieces => (ch :: piece) :: pieces

/-- All components of a list of optional numbers, when every one is present. -/
def allSome : List (Option Nat) → Option (List Nat)
  | [] => some []
  | none :: _ => none
  | some n :: rest => (allSome rest).map (fun ns => n :: ns)

/-- Modelled from the spec: parsing of a version string (the updater package is not part
of the sources at hand). A leading `v` is stripped, a pre-release suffix starts at the
first `-`, the rest is a dot-separated sequence of numeric components. -/
def parseVersion (s : String) : Option Version :=
  let body := match s.data with
    | 'v' :: rest => rest
    | other => other
  let core := body.takeWhile (fun ch => ch ≠ '-')
  let suffix := match body.dropWhile (fun ch => ch ≠ '-') with
    | [] => none
    | _ :: suf => some suf
  (allSome ((splitOnChar '.' core).map parseNumber)).map
    (fun comps => { components := comps, suffix := suffix })

/-- Component-wise comparison, the shorter sequence padded with zeros. -/
def compareComponents : List Nat → List Nat → Ordering
  | [], bs => if bs.all (fun b => b = 0) then .eq else .lt
  | a :: as, [] => if (a :: as).all (fun x => x = 0) then .eq else .gt
  | a :: as, b :: bs =>
    if a < b then .lt else if b < a then .gt else compareComponents as bs

/-- Lexicographic comparison of two texts. -/
def compareText : List Char → List Char → Ordering
  | [], [] => .eq
  | [], _ :: _ => .lt
  | _ :: _, [] => .gt
  | a :: as, b :: bs =>
    if a.toNat < b.toNat then .lt else if b.toNat < a.toNat then .gt else compareText as bs

/-- Modelled from the spec: the version comparison of sections 3 and 4.4 (the updater
package is not part of the sources at hand). Numeric components decide first; with
equal components a version with a pre-release suffix sorts before the one without;
versions that do not parse compare as texts. -/
def compareVersion (a b : String) : Ordering :=
  match parseVersion a, parseVersion b with
  | some va, some vb =>
    match compareComponents va.components vb.components with
    | .eq =>
      match va.suffix, vb.suffix with
      | none, none => .eq
      | some _, none => .lt
      | none, some _ => .gt
      | some sa, some sb => compareText sa sb
    | o => o
  | _, _ => compareText a.data b.data

/-- The tag `name` is one of `tags` and no tag of the list is greater than it under the
version comparison. -/
def isGreatestTag (tags : List bitbucketTag) (name : String) : Prop :=
  (∃ t ∈ tags, t.Name = name) ∧ ∀ t ∈ tags, compareVersion t.Name name ≠ .gt

/-! ## The update engine (specification, section 4.3) -/

/-- The status an update reports. -/
inductive UpdateStatus where
  | Unknown : UpdateStatus
  | UpToDate : UpdateStatus
  | Updated : UpdateStatus
deriving DecidableEq, Repr

/-- The collaborators of the engine during one call.

* `latest`: the result of the provider's `GetLatestVersion`;
* `openErr`: the error of the provider's `Open`, if it fails;
* `verifyErr`: the error of the verifier, if it rejects the archive (never with no
  public key configured);
* `executable`: the result of `GetExecutable`;
* `newBinary`: the bytes of the executable that the archive ships, as the provider
  retrieves them;
* `sha256`: the SHA-256 digest. -/
structure UpdaterEnv where
  latest : Except Error String
  openErr : Option Error
  verifyErr : Option Error
  executable : Except Error String
  newBinary : Except Error Bytes
  sha256 : Bytes → Bytes

/-- The configuration of the engine that the model needs: the embedded version. -/
structure Updater where
  Version : String

/-- A same-directory rename: it fails when the source does not exist. -/
def FS.rename (fs : FS) (a b : String) : Option FS :=
  match fs.read a with
  | none => none
  | some data => some ((fs.remove a).write b data)

/-- Modelled from the spec: the SHA-256 of the file at `path`, as `crypto.ChecksumFileSHA256`
returns it in the tests (package `internal/crypto` is not part of the sources at hand). -/
def checksum (env : UpdaterEnv) (fs : FS) (path : String) : Option Bytes :=
  (fs.read path).map env.sha256

/-- Modelled from the spec: `CanUpdate` (the updater package is not part of the sources
at hand) fetches the latest version and returns true iff it is strictly greater than
the embedded one; it returns false unless both sides parse. -/
def Updater.CanUpdate (env : UpdaterEnv) (u : Updater) : Except Error Bool :=
  match env.latest with
  | .error err => .error err
  | .ok latest =>
    .ok ((parseVersion latest).isSome && (parseVersion u.Version).isSome
          && decide (compareVersion latest u.Version = .gt))

/-- The smallest `n` for which `<old>.<n>` is unused. -/
def freeGeneration (fs : FS) (old : String) : Option Nat :=
  (List.range (fs.files.length + 1)).find?
    (fun n => !fs.fileExists (old ++ "." ++ toString n))

/-- Modelled from the spec: step `BackupOld` of the state machine. A pre-existing
`<exe>.old` is first moved to `<exe>.old.<n>` with the smallest unused `n`, then `<exe>`
is renamed to `<exe>.old`. -/
def BackupOld (fs : FS) (exe : String) : Option FS :=
  let old := exe ++ ".old"
  let kept : Option FS :=
    if fs.fileExists old then
      (freeGeneration fs old).bind (fun n => fs.rename old (old ++ "." ++ toString n))
    else some fs
  kept.bind (fun fs1 => fs1.rename exe old)

/-- Modelled from the spec: `Update` (the updater package is not part of the sources at
hand) drives the state machine of section 4.3: `CanUpdate`, `OpenProvider`, `Verify`,
`LocateExe`, `StageNew` (the verified executable is copied to `<exe>.new`, and its
SHA-256 is compared with the recorded one), `BackupOld`, `PromoteNew` (rename of
`<exe>.new` to `<exe>`). Permission bits are not part of the model. -/
def Updater.Update (env : UpdaterEnv) (u : Updater) (fs : FS) :
    UpdateStatus × Option Error × FS :=
  match u.CanUpdate env with
  | .error err => (.Unknown, some err, fs)
  | .ok false => (.UpToDate, none, fs)
  | .ok true =>
    match env.openErr with
    | some err => (.Unknown, some err, fs)
    | none =>
      match env.verifyErr with
      | some err => (.Unknown, some err, fs)
      | none =>
        match env.executable with
        | .error err => (.Unknown, some err, fs)
        | .ok exe =>
          match env.newBinary with
          | .error err => (.Unknown, some err, fs)
          | .ok bin =>
            let fs1 := fs.write (exe ++ ".new") bin
            if checksum env fs1 (exe ++ ".new") ≠ some (env.sha256 bin) then
              (.Unknown, some (Error.new "StageCorruption"), fs1)
            else
              match BackupOld fs1 exe with
              | none => (.Unknown, some (Error.new "IOError"), fs1)
              | some fs2 =>
                match fs2.rename (exe ++ ".new") exe with
                | none => (.Unknown, some (Error.new "PromoteFailed"), fs2)
                | some fs3 => (.Updated, none, fs3)

/-- Modelled from the spec: `Rollback` (the updater package is not part of the sources at
hand) restores the previous binary from `<exe>.old` if present: `<exe>` is renamed to
`<exe>.new.discarded`, then `<exe>.old` to `<exe>`; if the second rename fails the
discarded file is renamed back. -/
def Updater.Rollback (env : UpdaterEnv) (fs : FS) : Option Error × FS :=
  match env.executable with
  | .error err => (some err, fs)
  | .ok exe =>
    if fs.fileExists (exe ++ ".old") = false then (some (Error.new "NoBackup"), fs)
    else
      match fs.rename exe (exe ++ ".new.discarded") with
      | none => (some (Error.new "IOError"), fs)
      | some fs1 =>
        match fs1.rename (exe ++ ".old") exe with
        | none => (some (Error.new "IOError"), (fs1.rename (exe ++ ".new.discarded") exe).getD fs1)
        | some fs2 => (none, fs2)

/-! ## The provider contract of `ProviderTestWalkAndRetrieve` -/

/-- The two methods of interface `AccessProvider` over the states `ρ` of a handle. -/
structure AccessProvider (ρ : Type) where
  Walk : ρ → (τ : Type) → WalkFunc τ → τ → Option Error × ρ × τ
  Retrieve : ρ → String → String → FS → Outcome (Option Error × ρ × FS)

/-- A visit function that records the entries it is given. -/
def recordEntries : WalkFunc (List FileInfo) :=
  fun info acc => (none, acc ++ [info])

/-- The entries a walk of the handle `h` yields. -/
def AccessProvider.yielded {ρ : Type} (P : AccessProvider ρ) (h : ρ) : List FileInfo :=
  (P.Walk h (List FileInfo) recordEntries []).2.2

/-- The handle after that walk. -/
def AccessProvider.afterWalk {ρ : Type} (P : AccessProvider ρ) (h : ρ) : ρ :=
  (P.Walk h (List FileInfo) recordEntries []).2.1

/-- The contract for the handle `h`, the destination `dest` and the disk `fs`: every
non-directory entry that the walk yields is retrieved into `dest` without error and
`dest` exists afterwards, and a second walk yields the same entries. -/
def AccessProvider.WalkRetrieveContract {ρ : Type} (P : AccessProvider ρ) (h : ρ)
    (dest : String) (fs : FS) : Prop :=
  (∀ info ∈ P.yielded h, FileMode.IsDir info.Mode = false →
    ∃ h2 fs2, P.Retrieve (P.afterWalk h) info.Path dest fs = .ret (none, h2, fs2)
      ∧ fs2.fileExists dest = true)
  ∧ P.yielded (P.afterWalk h) = P.yielded h

/-- The inner provider seen through interface `AccessProvider`. -/
def innerAccess {σ : Type} (env : Env σ) : AccessProvider σ :=
  { Walk := env.inner.Walk,
    Retrieve := fun p src dest fs => .ret (env.inner.Retrieve p src dest fs) }

/-- A `BitBucket` handle seen through interface `AccessProvider`. -/
def bitbucketAccess {σ : Type} (env : Env σ) : AccessProvider (BitBucket σ) :=
  { Walk := BitBucket.Walk env, Retrieve := BitBucket.Retrieve env }

/-! ## Sequences of `Open` and `Close` -/

/-- The states `(handle, disk, temp directories recorded so far)` that a new handle
reaches through `Open` and `Close` calls when `Open` is only called while `tmpDir` is
empty (on the new handle, after a `Close`, or after an `Open` that failed before it
created its temp directory). Every call has its own environment. -/
inductive Alternating {σ : Type} [HoldsScratch σ] : BitBucket σ → FS → List String → Prop where
  | fresh (url archive : String) (fs : FS) : Alternating (BitBucket.mk0 σ url archive) fs []
  | afterOpen (env : Env σ) (c : BitBucket σ) (fs : FS) (created : List String) :
      Alternating c fs created → c.tmpDir = "" →
      Alternating (c.Open env fs).2.1 (c.Open env fs).2.2 ((c.Open env fs).2.1.tmpDir :: created)
  | afterClose (env : Env σ) (c : BitBucket σ) (fs : FS) (created : List String) :
      Alternating c fs created →
      Alternating (c.Close env fs).2.1 (c.Close env fs).2.2 created

/-- The states `(handle, disk, temp directories recorded so far)` that a new handle
reaches through any sequence of `Open` and `Close` calls. -/
inductive Reachable {σ : Type} [HoldsScratch σ] : BitBucket σ → FS → List String → Prop where
  | fresh (url archive : String) (fs : FS) : Reachable (BitBucket.mk0 σ url archive) fs []
  | afterOpen (env : Env σ) (c : BitBucket σ) (fs : FS) (created : List String) :
      Reachable c fs created →
      Reachable (c.Open env fs).2.1 (c.Open env fs).2.2 ((c.Open env fs).2.1.tmpDir :: created)
  | afterClose (env : Env σ) (c : BitBucket σ) (fs : FS) (created : List String) :
      Reachable c fs created →
      Reachable (c.Close env fs).2.1 (c.Close env fs).2.2 created

/-! ## Concrete environments -/

/-- Runs the visit function over a list of entries, stopping at its first error. -/
def walkEntries {τ : Type} (walkFn : WalkFunc τ) : List FileInfo → τ → Option Error × τ
  | [], t => (none, t)
  | info :: rest, t =>
    match walkFn info t with
    | (some err, t1) => (some err, t1)
    | (none, t1) => walkEntries walkFn rest t1

/-- State of a small in-memory provider: the members of the archive, whether the archive
is damaged, the directories that `Open` unpacks into, and the directories held now. -/
structure MemArchive where
  members : List (String × Bytes)
  damaged : Bool
  unpackInto : List String
  held : List String
deriving DecidableEq, Repr

instance : HoldsScratch MemArchive where
  scratch := fun p => p.held

/-- A small provider over `MemArchive`: `Open` fails on a damaged archive and otherwise
unpacks, `Close` lets go of the directories, `Walk` visits the members in order,
`Retrieve` writes a member to `dest`. -/
def memProvider : Provider MemArchive :=
  { Open := fun p _ =>
      if p.damaged then (some (Error.new "zip: not a valid zip file"), p)
      else (none, { p with held := p.unpackInto }),
    Close := fun p => (none, { p with held := [] }),
    Walk := fun p _ walkFn t =>
      let r := walkEntries walkFn (p.members.map (fun m => { Path := m.1, Mode := 420 })) t
      (r.1, p, r.2),
    Retrieve := fun p src dest fs =>
      match p.members.lookup src with
      | none => (some (Error.new "file does not exist"), p, fs)
      | some data => (none, p, fs.write dest data) }

/-- An environment for the examples: the network answers with a tag list and an archive,
the temp directory is `tmp`, and `Decompress` yields the archive `arch`. -/
def demoEnv (tmp : String) (arch : MemArchive) (tags : List bitbucketTag) : Env MemArchive :=
  { httpGet := fun _ => .ok { body := [80, 75], copyErr := none },
    decodeTags := fun _ => .ok tags,
    tempName := .ok tmp,
    Join := fun a b => a ++ "/" ++ b,
    createErr := fun _ => none,
    Decompress := fun _ => .ok arch,
    inner := memProvider }

/-- The handle of the examples. -/
def demoHandle : BitBucket MemArchive :=
  BitBucket.mk0 MemArchive "bitbucket.org/BenTomsett/go-rocket-update-example" "project.zip"

/-- The archive of the examples: one regular file. -/
def demoArchive : MemArchive :=
  { members := [("project", [1, 2, 3])], damaged := false, unpackInto := [], held := [] }

/-- An archive that is unpacked into a directory of its own, as a `.tar.gz` is. -/
def unpackedArchive : MemArchive :=
  { members := [("project", [1, 2, 3])], damaged := false,
    unpackInto := ["/tmp/rocket-update-unpacked"], held := [] }

/-- The environment of a first `Open`: the temp directory is `/tmp/rocket-update1`. -/
def firstEnv : Env MemArchive := demoEnv "/tmp/rocket-update1" demoArchive []

/-- The environment of a second `Open`: the temp directory is `/tmp/rocket-update2`, and
the archive is unpacked into a directory of its own. -/
def secondEnv : Env MemArchive := demoEnv "/tmp/rocket-update2" unpackedArchive []

/-- The empty disk. -/
def emptyFS : FS := { dirs := [], files := [] }

/-- Result of a first `Open` of the handle of the examples on the empty disk. -/
def openedOnce : Option Error × BitBucket MemArchive × FS :=
  demoHandle.Open firstEnv emptyFS

/-- Result of a second `Open` right after the first. -/
def openedTwice : Option Error × BitBucket MemArchive × FS :=
  openedOnce.2.1.Open secondEnv openedOnce.2.2

/-- The directory part of a location: the text before its last `/` (the root for a
location directly beneath it). -/
def parentOf (loc : String) : String :=
  match (loc.data.reverse.dropWhile (fun ch => ch ≠ '/')).reverse with
  | [] => ""
  | ['/'] => "/"
  | chars => String.mk chars.dropLast

/-- A helper environment without faults. Paths are locations already, but for
`/in/./a`, which is another spelling of `/in/a`; the digest is the identity. -/
def plainHelperEnv : HelperEnv :=
  { resolve := fun p => if p = "/in/./a" then "/in/a" else p,
    Dir := parentOf,
    openErr := fun _ => none, createErr := fun _ => none, copyErr := none, syncErr := none,
    sha256 := fun b => b, hexEncode := fun b => String.mk (b.map (fun x => Char.ofNat x.toNat)) }

/-- The environment of a process that may not read `/out/b`: the file is created without
read permission (`os.Create` asks for mode 0666 and the umask takes the read bits away),
so a later `os.Open` of it fails. -/
def unreadableDestEnv : HelperEnv :=
  { plainHelperEnv with
    openErr := fun p => if p = "/out/b" then some (Error.new "open /out/b: permission denied")
                        else none }

/-- A disk with the directories `/in` and `/out` and the file `/in/a`. -/
def helperFS : FS :=
  { dirs := ["/in", "/out"], files := [("/in/a", [7, 9])] }

/-- An updater environment: the release `v1.0` ships the bytes `bin` for the executable
at `/opt/app/tool`; the digest is the identity. -/
def demoUpdaterEnv (bin : Bytes) : UpdaterEnv :=
  { latest := .ok "v1.0", openErr := none, verifyErr := none,
    executable := .ok "/opt/app/tool", newBinary := .ok bin, sha256 := fun b => b }

/-! ## Lemmas on the URL pattern -/

theorem dropLit_eq_some (lit s r : List Char) : dropLit lit s = some r ↔ s = lit ++ r := by
  induction lit generalizing s with
  | nil => simp [dropLit, eq_comm]
  | cons a lit ih =>
    cases s with
    | nil => simp [dropLit]
    | cons b s =>
      by_cases hab : a = b
      · subst hab
        simp [dropLit, ih]
      · simp [dropLit, hab]
        intro h
        exact fun _ => hab h.symm

theorem matchName_of_no_newline (s : List Char) (h : '\n' ∉ s) : matchName s = some s := by
  induction s with
  | nil => rfl
  | cons ch rest ih =>
    have h1 : ch ≠ '\n' := fun e => h (by simp [e])
    have h2 : '\n' ∉ rest := fun e => h (by simp [e])
    simp [matchName, h1, ih h2]

theorem matchOwner_eq_splitAtSlash (s : List Char) (h : '\n' ∉ s) :
    matchOwner s = splitAtSlash s := by
  induction s with
  | nil => rfl
  | cons ch rest ih =>
    have h1 : ch ≠ '\n' := fun e => h (by simp [e])
    have h2 : '\n' ∉ rest := fun e => h (by simp [e])
    by_cases hs : ch = '/'
    · simp [matchOwner, splitAtSlash, hs, matchName_of_no_newline rest h2]
    · simp [matchOwner, splitAtSlash, hs, h1, ih h2]

theorem splitAtSlash_eq_none (s : List Char) (h : '/' ∉ s) : splitAtSlash s = none := by
  induction s with
  | nil => rfl
  | cons ch rest ih =>
    have h1 : ch ≠ '/' := fun e => h (by simp [e])
    have h2 : '/' ∉ rest := fun e => h (by simp [e])
    simp [splitAtSlash, h1, ih h2]

theorem mem_slash_of_splitAtSlash_eq_none (s : List Char) (h : splitAtSlash s = none) :
    '/' ∉ s := by
  induction s with
  | nil => simp
  | cons ch rest ih =>
    by_cases hs : ch = '/'
    · simp [splitAtSlash, hs] at h
    · simp [splitAtSlash, hs] at h
      simp only [List.mem_cons, not_or]
      exact ⟨fun e => hs e.symm, ih h⟩

theorem afterFirst_isSuffix (lit s r : List Char) (h : afterFirst lit s = some r) :
    ∃ a, s = a ++ lit ++ r := by
  induction s with
  | nil =>
    simp only [afterFirst] at h
    exact ⟨[], by simpa using (dropLit_eq_some lit [] r).1 h⟩
  | cons ch rest ih =>
    simp only [afterFirst] at h
    cases hd : dropLit lit (ch :: rest) with
    | some r1 =>
      simp only [hd, Option.some.injEq] at h
      subst h
      exact ⟨[], by simpa using (dropLit_eq_some lit (ch :: rest) r1).1 hd⟩
    | none =>
      simp only [hd] at h
      obtain ⟨a, ha⟩ := ih h
      exact ⟨ch :: a, by simp [ha]⟩

/-- On a text without newline the leftmost match of the pattern is the reading of the
specification: first `bitbucket.org/`, then the next `/`. -/
theorem findSubmatch_eq_specOwnerName (s : List Char) (h : '\n' ∉ s) :
    findSubmatch s = specOwnerName s := by
  induction s with
  | nil => rfl
  | cons ch rest ih =>
    have h2 : '\n' ∉ rest := fun e => h (by simp [e])
    have ih2 := ih h2
    simp only [findSubmatch, matchAt, specOwnerName, afterFirst] at ih2 ⊢
    cases hd : dropLit bitbucketHost (ch :: rest) with
    | none =>
      simp only [Option.bind]
      exact ih2
    | some r =>
      have hr : ch :: rest = bitbucketHost ++ r := (dropLit_eq_some _ _ _).1 hd
      have hrn : '\n' ∉ r := fun e => h (by rw [hr]; simp [e])
      simp only [Option.bind, matchOwner_eq_splitAtSlash r hrn]
      cases hsp : splitAtSlash r with
      | some p => rfl
      | none =>
        simp only []
        rw [ih2]
        cases haf : afterFirst bitbucketHost rest with
        | none => rfl
        | some r2 =>
          simp only [Option.bind]
          apply splitAtSlash_eq_none
          obtain ⟨a, ha⟩ := afterFirst_isSuffix _ _ _ haf
          have hs1 : List.IsSuffix r (ch :: rest) := ⟨bitbucketHost, hr.symm⟩
          have hs2 : List.IsSuffix r2 (ch :: rest) := ⟨ch :: (a ++ bitbucketHost), by simp [ha]⟩
          have hlen : r2.length ≤ r.length := by
            have e1 := congrArg List.length hr
            have e2 := congrArg List.length ha
            simp at e1 e2
            omega
          have hsuf := List.suffix_of_suffix_length_le hs2 hs1 hlen
          intro hmem
          exact mem_slash_of_splitAtSlash_eq_none r hsp (hsuf.subset hmem)

/-! ## The reading of the specification, in terms of occurrences -/

theorem splitAtSlash_eq_some (s owner name : List Char) (h : splitAtSlash s = some (owner, name)) :
    s = owner ++ '/' :: name ∧ '/' ∉ owner := by
  induction s generalizing owner with
  | nil => simp [splitAtSlash] at h
  | cons ch rest ih =>
    by_cases hs : ch = '/'
    · simp only [splitAtSlash, hs, if_true, Option.some.injEq, Prod.mk.injEq] at h
      obtain ⟨h1, h2⟩ := h
      subst h1 h2
      simp [hs]
    · simp only [splitAtSlash, hs, if_false, Option.map_eq_some'] at h
      obtain ⟨r, hr, hr2⟩ := h
      obtain ⟨o, n⟩ := r
      simp only [Prod.mk.injEq] at hr2
      obtain ⟨h1, h2⟩ := hr2
      subst h1 h2
      obtain ⟨e1, e2⟩ := ih o hr
      refine ⟨by rw [e1]; simp, ?_⟩
      simp only [List.mem_cons, not_or]
      exact ⟨fun e => hs e.symm, e2⟩

/-- When `specOwnerName` answers, the URL is some text, `bitbucket.org/`, the owner without
`/`, a `/`, and the name. -/
theorem specOwnerName_eq_some (s owner name : List Char)
    (h : specOwnerName s = some (owner, name)) :
    ∃ before, s = before ++ bitbucketHost ++ owner ++ '/' :: name ∧ '/' ∉ owner := by
  unfold specOwnerName at h
  cases ha : afterFirst bitbucketHost s with
  | none => simp [ha] at h
  | some r =>
    simp only [ha, Option.bind] at h
    obtain ⟨a, hs⟩ := afterFirst_isSuffix _ _ _ ha
    obtain ⟨e1, e2⟩ := splitAtSlash_eq_some r owner name h
    exact ⟨a, by rw [hs, e1]; simp, e2⟩

theorem afterFirst_cons (lit : List Char) (x : Char) (rest : List Char) :
    afterFirst lit (x :: rest)
      = match dropLit lit (x :: rest) with
        | some r => some r
        | none => afterFirst lit rest := rfl

theorem afterFirst_append (lit a t : List Char) (hlit : lit ≠ []) :
    ∃ r, afterFirst lit (a ++ lit ++ t) = some r ∧ List.IsSuffix t r := by
  induction a with
  | nil =>
    have hd : dropLit lit (lit ++ t) = some t := (dropLit_eq_some lit (lit ++ t) t).2 rfl
    refine ⟨t, ?_, List.suffix_refl t⟩
    rw [List.nil_append]
    cases hl : lit ++ t with
    | nil => simp [hlit] at hl
    | cons x xs =>
      rw [hl] at hd
      rw [afterFirst_cons, hd]
  | cons x a ih =>
    obtain ⟨r, hr, hsuf⟩ := ih
    have hshape : x :: a ++ lit ++ t = x :: (a ++ lit ++ t) := by simp
    rw [hshape, afterFirst_cons]
    cases hd : dropLit lit (x :: (a ++ lit ++ t)) with
    | none => exact ⟨r, hr, hsuf⟩
    | some r2 =>
      refine ⟨r2, rfl, ?_⟩
      have he : x :: (a ++ lit ++ t) = lit ++ r2 := (dropLit_eq_some _ _ _).1 hd
      have hs1 : List.IsSuffix r2 (x :: (a ++ lit ++ t)) := ⟨lit, he.symm⟩
      have hs2 : List.IsSuffix t (x :: (a ++ lit ++ t)) := ⟨x :: (a ++ lit), by simp⟩
      have hlen : t.length ≤ r2.length := by
        have e1 := congrArg List.length he
        simp at e1
        omega
      exact List.suffix_of_suffix_length_le hs2 hs1 hlen

/-- When the URL holds `bitbucket.org/` followed later by a `/`, `specOwnerName` answers. -/
theorem specOwnerName_isSome (a b rest : List Char) :
    (specOwnerName (a ++ bitbucketHost ++ b ++ '/' :: rest)).isSome = true := by
  obtain ⟨r, hr, hsuf⟩ := afterFirst_append bitbucketHost a (b ++ '/' :: rest) (by decide)
  have hr2 : afterFirst bitbucketHost (a ++ bitbucketHost ++ b ++ '/' :: rest) = some r := by
    rw [← hr]; simp
  unfold specOwnerName
  simp only [hr2, Option.bind]
  cases hsp : splitAtSlash r with
  | some p => rfl
  | none =>
    exfalso
    exact mem_slash_of_splitAtSlash_eq_none r hsp (hsuf.subset (by simp))

/-- The occurrence that `afterFirst` finds is the first one. -/
theorem afterFirst_first (lit s r : List Char) (h : afterFirst lit s = some r) :
    ∃ before, s = before ++ lit ++ r
      ∧ ∀ a t, s = a ++ lit ++ t → before.length ≤ a.length := by
  induction s with
  | nil =>
    simp only [afterFirst] at h
    exact ⟨[], by simpa using (dropLit_eq_some lit [] r).1 h, by simp⟩
  | cons ch rest ih =>
    rw [afterFirst_cons] at h
    cases hd : dropLit lit (ch :: rest) with
    | some r1 =>
      simp only [hd, Option.some.injEq] at h
      subst h
      exact ⟨[], by simpa using (dropLit_eq_some lit (ch :: rest) r1).1 hd, by simp⟩
    | none =>
      simp only [hd] at h
      obtain ⟨before, hb, hmin⟩ := ih h
      refine ⟨ch :: before, by simp [hb], ?_⟩
      intro a t hat
      cases a with
      | nil =>
        have : dropLit lit (ch :: rest) = some t := (dropLit_eq_some _ _ _).2 (by simpa using hat)
        rw [hd] at this
        cases this
      | cons y a2 =>
        simp only [List.cons_append, List.cons.injEq] at hat
        have := hmin a2 t hat.2
        simp only [List.length_cons]
        omega

/-! ## Claims on the URL handling and the tag list -/

/-- C9: for every RepositoryURL without newline: if it contains `bitbucket.org/` followed
later by a `/`, `repositoryInfo` returns as owner the text between the first
`bitbucket.org/` and the next `/` and as name everything after that `/`, and
`getArchiveUrl` and `getTagsUrl` return the two URLs built from owner and name;
otherwise all three return the error `Invalid BitBucket URL: <RepositoryURL>`. -/
theorem C9_repositoryInfo_reads_owner_and_name (σ : Type) (c : BitBucket σ)
    (h : '\n' ∉ c.RepositoryURL.data) :
    ((specOwnerName c.RepositoryURL.data).isSome = true
      ↔ ∃ a b rest, c.RepositoryURL.data = a ++ bitbucketHost ++ b ++ '/' :: rest)
    ∧ match specOwnerName c.RepositoryURL.data with
      | some (owner, name) =>
        (∃ before, c.RepositoryURL.data = before ++ bitbucketHost ++ owner ++ '/' :: name
          ∧ '/' ∉ owner
          ∧ ∀ a t, c.RepositoryURL.data = a ++ bitbucketHost ++ t → before.length ≤ a.length)
        ∧ c.repositoryInfo = .ok ⟨String.mk owner, String.mk name⟩
        ∧ c.getArchiveUrl = .ok ("https://bitbucket.org/" ++ String.mk owner ++ "/"
            ++ String.mk name ++ "/downloads/" ++ c.ArchiveName)
        ∧ c.getTagsUrl = .ok ("https://api.bitbucket.org/2.0/repositories/" ++ String.mk owner
            ++ "/" ++ String.mk name ++ "/refs/tags?sort=target.date")
      | none =>
        c.repositoryInfo = .error (Error.new ("Invalid BitBucket URL: " ++ c.RepositoryURL))
        ∧ c.getArchiveUrl = .error (Error.new ("Invalid BitBucket URL: " ++ c.RepositoryURL))
        ∧ c.getTagsUrl = .error (Error.new ("Invalid BitBucket URL: " ++ c.RepositoryURL)) := by
  have hf := findSubmatch_eq_specOwnerName c.RepositoryURL.data h
  constructor
  · constructor
    · intro hsome
      cases hs : specOwnerName c.RepositoryURL.data with
      | none => simp [hs] at hsome
      | some p =>
        obtain ⟨before, hb, _⟩ := specOwnerName_eq_some _ p.1 p.2 hs
        exact ⟨before, p.1, p.2, hb⟩
    · rintro ⟨a, b, rest, hab⟩
      rw [hab]
      exact specOwnerName_isSome a b rest
  · cases hs : specOwnerName c.RepositoryURL.data with
    | none =>
      rw [hs] at hf
      simp [BitBucket.repositoryInfo, BitBucket.getArchiveUrl, BitBucket.getTagsUrl, hf]
    | some p =>
      obtain ⟨owner, name⟩ := p
      rw [hs] at hf
      refine ⟨?_, by simp [BitBucket.repositoryInfo, hf],
        by simp [BitBucket.getArchiveUrl, BitBucket.repositoryInfo, hf],
        by simp [BitBucket.getTagsUrl, BitBucket.repositoryInfo, hf]⟩
      unfold specOwnerName at hs
      cases ha : afterFirst bitbucketHost c.RepositoryURL.data with
      | none => simp [ha] at hs
      | some r =>
        simp only [ha, Option.bind] at hs
        obtain ⟨before, hb, hmin⟩ := afterFirst_first _ _ _ ha
        obtain ⟨e1, e2⟩ := splitAtSlash_eq_some r owner name hs
        exact ⟨before, by rw [hb, e1]; simp, e2, hmin⟩

/-- The example of the source comment: `bitbucket.org/BenTomsett/go-rocket-update-example`
gives owner `BenTomsett` and name `go-rocket-update-example`. -/
theorem C9_witness :
    '\n' ∉ demoHandle.RepositoryURL.data
    ∧ demoHandle.repositoryInfo = .ok ⟨"BenTomsett", "go-rocket-update-example"⟩
    ∧ demoHandle.getArchiveUrl
        = .ok "https://bitbucket.org/BenTomsett/go-rocket-update-example/downloads/project.zip"
    ∧ demoHandle.getTagsUrl
        = .ok "https://api.bitbucket.org/2.0/repositories/BenTomsett/go-rocket-update-example/refs/tags?sort=target.date" :=
  have h : (∃ before, demoHandle.RepositoryURL.data
          = before ++ bitbucketHost ++ "BenTomsett".data ++ '/' :: "go-rocket-update-example".data
        ∧ '/' ∉ "BenTomsett".data
        ∧ ∀ a t, demoHandle.RepositoryURL.data = a ++ bitbucketHost ++ t → before.length ≤ a.length)
      ∧ demoHandle.repositoryInfo = .ok ⟨"BenTomsett", "go-rocket-update-example"⟩
      ∧ demoHandle.getArchiveUrl
          = .ok "https://bitbucket.org/BenTomsett/go-rocket-update-example/downloads/project.zip"
      ∧ demoHandle.getTagsUrl
          = .ok "https://api.bitbucket.org/2.0/repositories/BenTomsett/go-rocket-update-example/refs/tags?sort=target.date" :=
    (C9_repositoryInfo_reads_owner_and_name MemArchive demoHandle (by decide)).2
  ⟨by decide, h.2⟩

/-- C1 (as the code has it): for every non-empty list of tags returned by the tags API
call, `GetLatestVersion` returns the name of the first tag of the list. -/
theorem C1_GetLatestVersion_returns_first_tag (σ : Type) (env : Env σ) (c : BitBucket σ)
    (t : bitbucketTag) (rest : List bitbucketTag) (h : c.getTags env = .ok (t :: rest)) :
    c.GetLatestVersion env = .ok t.Name := by
  simp [BitBucket.GetLatestVersion, h]

theorem C1_witness :
    demoHandle.getTags (demoEnv "/tmp/rocket-update1" demoArchive [⟨"v1.0.0"⟩, ⟨"v2.0.0"⟩])
      = .ok [⟨"v1.0.0"⟩, ⟨"v2.0.0"⟩]
    ∧ demoHandle.GetLatestVersion (demoEnv "/tmp/rocket-update1" demoArchive [⟨"v1.0.0"⟩, ⟨"v2.0.0"⟩])
      = .ok "v1.0.0" :=
  ⟨by decide, C1_GetLatestVersion_returns_first_tag MemArchive _ demoHandle ⟨"v1.0.0"⟩ [⟨"v2.0.0"⟩]
    (by decide)⟩

/-- C1 fails as stated: with the tags `v1.0.0`, `v2.0.0` returned in this order,
`GetLatestVersion` returns `v1.0.0`, which is not the greatest tag. -/
theorem C1_counterexample :
    ¬ (∀ (env : Env MemArchive) (c : BitBucket MemArchive) (tags : List bitbucketTag),
        c.getTags env = .ok tags → tags ≠ [] →
        ∃ v, c.GetLatestVersion env = .ok v ∧ isGreatestTag tags v) := by
  intro hall
  obtain ⟨v, hv, hg⟩ := hall (demoEnv "/tmp/rocket-update1" demoArchive [⟨"v1.0.0"⟩, ⟨"v2.0.0"⟩])
    demoHandle [⟨"v1.0.0"⟩, ⟨"v2.0.0"⟩] (by decide) (by decide)
  have hv2 : demoHandle.GetLatestVersion
      (demoEnv "/tmp/rocket-update1" demoArchive [⟨"v1.0.0"⟩, ⟨"v2.0.0"⟩]) = .ok "v1.0.0" := by
    decide
  rw [hv2] at hv
  injection hv with hv
  subst hv
  exact hg.2 ⟨"v2.0.0"⟩ (by simp) (by decide)

/-! ## Claims on handles that are not open -/

/-- C6: for every visit function, `Walk` on a handle on which `Open` has never been called
returns `ErrNotOpenned`, leaves the handle and the state of the caller as they were, and
invokes the visit function zero times. -/
theorem C6_Walk_before_Open_is_ErrNotOpenned (σ : Type) (env : Env σ) (url archive : String)
    (τ : Type) (walkFn : WalkFunc τ) (t : τ) :
    (BitBucket.mk0 σ url archive).Walk env τ walkFn t
      = (some Error.ErrNotOpenned, BitBucket.mk0 σ url archive, t)
    ∧ ((BitBucket.mk0 σ url archive).Walk env (τ × Nat) (counting walkFn) (t, 0)).2.2.2 = 0 := by
  simp [BitBucket.Walk, BitBucket.mk0]

/-- C2 (what the code does): `Retrieve` on a handle that was never opened calls a method of
the nil `decompressProvider`: the call panics instead of returning `ErrNotOpenned`. -/
theorem C2_Retrieve_before_Open_dereferences_nil (σ : Type) (env : Env σ) (url archive : String)
    (src dest : String) (fs : FS) :
    (BitBucket.mk0 σ url archive).Retrieve env src dest fs = Outcome.nilDereference := by
  simp [BitBucket.Retrieve, BitBucket.mk0]

/-! ## Claims on open handles -/

/-- C7: on an open `BitBucket` handle `Walk` and `Retrieve` return exactly what the inner
provider's `Walk` and `Retrieve` return for the same arguments, and so the contract
(every non-directory entry that `Walk` yields is retrieved without error and `dest`
exists afterwards, and a second `Walk` yields the same entries) holds for the handle
whenever it holds for the inner provider. -/
theorem C7_open_handle_delegates (σ : Type) (env : Env σ) (c : BitBucket σ) (p : σ)
    (hopen : c.decompressProvider = some p) :
    (∀ (τ : Type) (walkFn : WalkFunc τ) (t : τ),
      c.Walk env τ walkFn t
        = ((env.inner.Walk p τ walkFn t).1,
           { c with decompressProvider := some (env.inner.Walk p τ walkFn t).2.1 },
           (env.inner.Walk p τ walkFn t).2.2))
    ∧ (∀ (src dest : String) (fs : FS),
      c.Retrieve env src dest fs
        = .ret ((env.inner.Retrieve p src dest fs).1,
           { c with decompressProvider := some (env.inner.Retrieve p src dest fs).2.1 },
           (env.inner.Retrieve p src dest fs).2.2))
    ∧ (∀ (dest : String) (fs : FS),
      (innerAccess env).WalkRetrieveContract p dest fs →
      (bitbucketAccess env).WalkRetrieveContract c dest fs) := by
  refine ⟨?_, ?_, ?_⟩
  · intro τ walkFn t
    simp [BitBucket.Walk, hopen]
  · intro src dest fs
    simp [BitBucket.Retrieve, hopen]
  · intro dest fs hc
    obtain ⟨hr, hw⟩ := hc
    have hy : (bitbucketAccess env).yielded c = (innerAccess env).yielded p := by
      simp [AccessProvider.yielded, bitbucketAccess, innerAccess, BitBucket.Walk, hopen]
    have ha : (bitbucketAccess env).afterWalk c
        = { c with decompressProvider := some ((innerAccess env).afterWalk p) } := by
      simp [AccessProvider.afterWalk, bitbucketAccess, innerAccess, BitBucket.Walk, hopen]
    constructor
    · intro info hinfo hdir
      rw [hy] at hinfo
      obtain ⟨h2, fs2, hret, hex⟩ := hr info hinfo hdir
      rw [ha]
      simp only [innerAccess, Outcome.ret.injEq] at hret
      refine ⟨{ c with decompressProvider := some h2 }, fs2, ?_, hex⟩
      simp only [bitbucketAccess, BitBucket.Retrieve, innerAccess]
      rw [hret]
    · rw [hy, ha]
      rw [← hw]
      simp [AccessProvider.yielded, bitbucketAccess, innerAccess, BitBucket.Walk]

theorem C7_witness :
    ({ demoHandle with decompressProvider := some demoArchive } : BitBucket MemArchive).decompressProvider
      = some demoArchive
    ∧ (bitbucketAccess (demoEnv "/tmp/rocket-update1" demoArchive [])).WalkRetrieveContract
        { demoHandle with decompressProvider := some demoArchive } "/out/project" emptyFS :=
  ⟨rfl, (C7_open_handle_delegates MemArchive (demoEnv "/tmp/rocket-update1" demoArchive [])
      { demoHandle with decompressProvider := some demoArchive } demoArchive rfl).2.2
      "/out/project" emptyFS (by
        constructor
        · intro info hinfo _
          have hi : info = ⟨"project", 420⟩ := by
            simpa [AccessProvider.yielded, innerAccess, demoEnv, memProvider, demoArchive,
              walkEntries, recordEntries] using hinfo
          subst hi
          exact ⟨demoArchive, emptyFS.write "/out/project" [1, 2, 3], by decide, by decide⟩
        · rfl)⟩

/-! ## Lemmas on the disk -/

theorem lookup_filter_ne (l : List (String × Bytes)) (p q : String) :
    (l.filter (fun e => e.1 ≠ p)).lookup q = if q = p then none else l.lookup q := by
  induction l with
  | nil => simp
  | cons e l ih =>
    obtain ⟨k, v⟩ := e
    by_cases hk : k = p
    · have h1 : List.filter (fun e : String × Bytes => decide (e.1 ≠ p)) ((k, v) :: l)
          = List.filter (fun e => decide (e.1 ≠ p)) l := by
        simp [List.filter_cons, hk]
      rw [h1, ih]
      by_cases hq : q = p
      · simp [hq]
      · have hqk : (q == k) = false := by simp [hk, hq]
        simp [hq, List.lookup_cons, hqk]
    · have h1 : List.filter (fun e : String × Bytes => decide (e.1 ≠ p)) ((k, v) :: l)
          = (k, v) :: List.filter (fun e => decide (e.1 ≠ p)) l := by
        simp [List.filter_cons, hk]
      rw [h1, List.lookup_cons, ih]
      by_cases hq : q = k
      · subst hq
        simp [hk]
      · have hqk : (q == k) = false := by simp [hq]
        simp [hqk, List.lookup_cons]

theorem FS.read_write_same (fs : FS) (p : String) (b : Bytes) : (fs.write p b).read p = some b := by
  simp [FS.read, FS.write, List.lookup_cons]

theorem FS.read_write_ne (fs : FS) (p q : String) (b : Bytes) (h : q ≠ p) :
    (fs.write p b).read q = fs.read q := by
  have hb : (q == p) = false := by simp [h]
  have hl := lookup_filter_ne fs.files p q
  simp only [FS.read, FS.write, List.lookup_cons, hb]
  rw [hl]
  simp [h]

theorem FS.read_remove_same (fs : FS) (p : String) : (fs.remove p).read p = none := by
  have hl := lookup_filter_ne fs.files p p
  simp only [FS.read, FS.remove]
  rw [hl]
  simp

theorem FS.read_remove_ne (fs : FS) (p q : String) (h : q ≠ p) :
    (fs.remove p).read q = fs.read q := by
  have hl := lookup_filter_ne fs.files p q
  simp only [FS.read, FS.remove]
  rw [hl]
  simp [h]

/-! ## Claims on `helper.go` -/

/-- C10 (as the code has it): for every pair of paths `src` and `dest` that name different
files, whenever `CopyFile(src, dest)` returns nil, `dest` holds exactly the bytes that
`src` held before the call and the bytes of `src` are unchanged; `ChecksumFile(src)`
before the call and `ChecksumFile(src)` after the call return the checksum of those
bytes, and so does `ChecksumFile(dest)` after the call, unless `os.Open(dest)` fails,
in which case it returns that error. -/
theorem C10_CopyFile_copies_between_different_files (env : HelperEnv) (fs : FS)
    (src dest : String) (hne : env.resolve src ≠ env.resolve dest)
    (hnil : (CopyFile env fs src dest).1 = none) :
    ∃ data, fs.read (env.resolve src) = some data
      ∧ (CopyFile env fs src dest).2.read (env.resolve dest) = some data
      ∧ (CopyFile env fs src dest).2.read (env.resolve src) = some data
      ∧ ChecksumFile env fs src = .ok (env.hexEncode (env.sha256 data))
      ∧ ChecksumFile env (CopyFile env fs src dest).2 src = ChecksumFile env fs src
      ∧ (env.openErr dest = none →
          ChecksumFile env (CopyFile env fs src dest).2 dest = ChecksumFile env fs src)
      ∧ (∀ err, env.openErr dest = some err →
          ChecksumFile env (CopyFile env fs src dest).2 dest = .error err) := by
  unfold CopyFile at hnil ⊢
  cases ho : env.os_Open fs src with
  | some err => simp [ho] at hnil
  | none =>
    cases hc : env.os_Create fs dest with
    | error err => simp [ho, hc] at hnil
    | ok fs1 =>
      have hfs1 : fs1 = fs.write (env.resolve dest) [] := by
        unfold HelperEnv.os_Create at hc
        split at hc
        · cases hc
        · split at hc
          · cases hc
          · split at hc
            · cases hc
            · injection hc with hc
              exact hc.symm
      have hsrc1 : fs1.read (env.resolve src) = fs.read (env.resolve src) := by
        rw [hfs1]; exact FS.read_write_ne fs _ _ [] hne
      cases hr : fs.read (env.resolve src) with
      | none => simp [ho, hc, hsrc1, hr] at hnil
      | some data =>
        cases he : env.copyErr with
        | some ne => simp [ho, hc, hsrc1, hr, he] at hnil
        | none =>
          simp only [ho, hc, hsrc1, hr, he]
          have hd : (fs1.write (env.resolve dest) data).read (env.resolve dest) = some data :=
            FS.read_write_same _ _ _
          have hs : (fs1.write (env.resolve dest) data).read (env.resolve src) = some data := by
            rw [FS.read_write_ne _ _ _ data hne, hsrc1, hr]
          have hopen2 : env.os_Open (fs1.write (env.resolve dest) data) src = none := by
            unfold HelperEnv.os_Open at ho ⊢
            have hex : (fs1.write (env.resolve dest) data).fileExists (env.resolve src) = true := by
              simp [FS.fileExists, hs]
            simp only [hex, true_or, if_true]
            split at ho
            · exact ho
            · cases ho
          have hsum0 : ChecksumFile env fs src = .ok (env.hexEncode (env.sha256 data)) := by
            unfold ChecksumFile
            simp only [ho, hr, he]
          have hsum1 : ChecksumFile env (fs1.write (env.resolve dest) data) src
              = .ok (env.hexEncode (env.sha256 data)) := by
            unfold ChecksumFile
            simp only [hopen2, hs, he]
          have hopend : env.os_Open (fs1.write (env.resolve dest) data) dest = env.openErr dest := by
            unfold HelperEnv.os_Open
            have hex : (fs1.write (env.resolve dest) data).fileExists (env.resolve dest) = true := by
              simp [FS.fileExists, hd]
            simp only [hex, true_or, if_true]
          refine ⟨data, rfl, hd, hs, hsum0, hsum1.trans hsum0.symm, ?_, ?_⟩
          · intro hok
            rw [hsum0]
            unfold ChecksumFile
            simp only [hopend, hok, hd, he]
          · intro err herr
            unfold ChecksumFile
            simp only [hopend, herr]

theorem C10_witness :
    plainHelperEnv.resolve "/in/a" ≠ plainHelperEnv.resolve "/out/b"
    ∧ (CopyFile plainHelperEnv helperFS "/in/a" "/out/b").1 = none
    ∧ (CopyFile plainHelperEnv helperFS "/in/a" "/out/b").2.read "/out/b" = some [7, 9]
    ∧ ChecksumFile plainHelperEnv (CopyFile plainHelperEnv helperFS "/in/a" "/out/b").2 "/out/b"
        = ChecksumFile plainHelperEnv helperFS "/in/a" := by
  refine ⟨by decide, by decide, by decide, ?_⟩
  obtain ⟨_, _, _, _, _, _, hdest, _⟩ :=
    C10_CopyFile_copies_between_different_files plainHelperEnv helperFS "/in/a" "/out/b"
      (by decide) (by decide)
  exact hdest rfl

/-- C10 fails as stated. For `src = dest`, `CopyFile("/in/a", "/in/a")` returns nil and
leaves the file empty, because `os.Create` truncates it before `io.Copy` reads it. And
for different files, `ChecksumFile(dest)` after the call is not `ChecksumFile(src)` before
the call when the process may not read the file it has created. -/
theorem C10_counterexample :
    ¬ (∀ (env : HelperEnv) (fs : FS) (src dest : String),
        (CopyFile env fs src dest).1 = none →
        (CopyFile env fs src dest).2.read (env.resolve dest) = fs.read (env.resolve src)
        ∧ (CopyFile env fs src dest).2.read (env.resolve src) = fs.read (env.resolve src)
        ∧ ChecksumFile env (CopyFile env fs src dest).2 dest = ChecksumFile env fs src
        ∧ ChecksumFile env (CopyFile env fs src dest).2 src = ChecksumFile env fs src)
    ∧ ¬ (∀ (env : HelperEnv) (fs : FS) (src dest : String),
        env.resolve src ≠ env.resolve dest → (CopyFile env fs src dest).1 = none →
        ChecksumFile env (CopyFile env fs src dest).2 dest = ChecksumFile env fs src) := by
  constructor
  · intro hall
    have h := hall plainHelperEnv helperFS "/in/a" "/in/a" (by decide)
    exact absurd h.1 (by decide)
  · intro hall
    have h := hall unreadableDestEnv helperFS "/in/a" "/out/b" (by decide) (by decide)
    exact absurd h (by decide)

/-- Two different path strings can name one file: `CopyFile("/in/a", "/in/./a")` returns nil
and leaves the file empty. -/
theorem CopyFile_other_spelling_truncates :
    ("/in/a" : String) ≠ "/in/./a"
    ∧ (CopyFile plainHelperEnv helperFS "/in/a" "/in/./a").1 = none
    ∧ helperFS.read (plainHelperEnv.resolve "/in/a") = some [7, 9]
    ∧ (CopyFile plainHelperEnv helperFS "/in/a" "/in/./a").2.read (plainHelperEnv.resolve "/in/a")
        = some [] := by
  refine ⟨?_, ?_, ?_, ?_⟩ <;> decide

/-- A copy into a directory that does not exist fails and leaves the disk as it was. -/
theorem CopyFile_missing_parent_fails :
    (CopyFile plainHelperEnv helperFS "/in/a" "/nowhere/b").1
        = some (Error.new "open /nowhere/b: no such file or directory")
    ∧ (CopyFile plainHelperEnv helperFS "/in/a" "/nowhere/b").2 = helperFS := by
  refine ⟨?_, ?_⟩ <;> decide

/-- A copy into a file that the process may not read afterwards returns nil, the bytes
are there, and `ChecksumFile(dest)` returns the error of `os.Open`. -/
theorem ChecksumFile_of_unreadable_dest :
    (CopyFile unreadableDestEnv helperFS "/in/a" "/out/b").1 = none
    ∧ (CopyFile unreadableDestEnv helperFS "/in/a" "/out/b").2.read "/out/b" = some [7, 9]
    ∧ ChecksumFile unreadableDestEnv (CopyFile unreadableDestEnv helperFS "/in/a" "/out/b").2
        "/out/b" = .error (Error.new "open /out/b: permission denied")
    ∧ ChecksumFile unreadableDestEnv helperFS "/in/a"
        = .ok (unreadableDestEnv.hexEncode (unreadableDestEnv.sha256 [7, 9])) := by
  refine ⟨?_, ?_, ?_, ?_⟩ <;> decide

/-! ## Lemmas on `Open` and `Close` -/

theorem dirs_holdDirs (fs : FS) (ds : List String) (d : String) :
    d ∈ (holdDirs fs ds).dirs ↔ d ∈ ds ∨ d ∈ fs.dirs := by
  simp only [holdDirs, List.mem_append, List.mem_filter, decide_eq_true_eq]
  constructor
  · rintro (⟨h, _⟩ | h)
    · exact Or.inl h
    · exact Or.inr h
  · rintro (h | h)
    · by_cases hd : d ∈ fs.dirs
      · exact Or.inr hd
      · exact Or.inl ⟨h, hd⟩
    · exact Or.inr h

theorem not_mem_dirs_RemoveAll (fs : FS) (dir : String) : dir ∉ (os_RemoveAll fs dir).dirs := by
  simp [os_RemoveAll, isUnder]

theorem dirs_RemoveAll_subset (fs : FS) (dir d : String) (h : d ∈ (os_RemoveAll fs dir).dirs) :
    d ∈ fs.dirs := by
  simp only [os_RemoveAll, List.mem_filter] at h
  exact h.1

theorem dirs_releaseDirs_subset (fs : FS) (ds : List String) (d : String)
    (h : d ∈ (releaseDirs fs ds).dirs) : d ∈ fs.dirs := by
  induction ds generalizing fs with
  | nil => exact h
  | cons x ds ih =>
    simp only [releaseDirs, List.foldl_cons] at h
    exact dirs_RemoveAll_subset fs x d (ih (os_RemoveAll fs x) h)

theorem not_mem_dirs_releaseDirs (fs : FS) (ds : List String) (d : String) (hd : d ∈ ds) :
    d ∉ (releaseDirs fs ds).dirs := by
  induction ds generalizing fs with
  | nil => simp at hd
  | cons x ds ih =>
    simp only [releaseDirs, List.foldl_cons]
    simp only [List.mem_cons] at hd
    rcases hd with hd | hd
    · subst hd
      intro hmem
      exact not_mem_dirs_RemoveAll fs d (dirs_releaseDirs_subset (os_RemoveAll fs d) ds d hmem)
    · exact ih (os_RemoveAll fs x) hd

/-- The ways a call of `Open` can end. -/
theorem BitBucket.Open_cases {σ : Type} [HoldsScratch σ] (env : Env σ) (c : BitBucket σ)
    (fs : FS) :
    (∃ err, c.Open env fs = (some err, c, fs))
    ∨ (∃ err, c.Open env fs = (some err, { c with tmpDir := "" }, fs))
    ∨ (∃ d fs3, d ≠ "" ∧ d ∉ fs.dirs ∧ fs3.dirs = d :: fs.dirs
        ∧ ((∃ err, c.Open env fs
              = (some err, { c with tmpDir := d, archivePath := env.Join d c.ArchiveName }, fs3))
          ∨ (∃ err, c.Open env fs
              = (some err, { c with tmpDir := d, archivePath := env.Join d c.ArchiveName,
                                    decompressProvider := none }, fs3))
          ∨ (∃ p, env.Decompress (env.Join d c.ArchiveName) = .ok p
              ∧ c.Open env fs
                = ((env.inner.Open p fs3).1,
                   { c with tmpDir := d, archivePath := env.Join d c.ArchiveName,
                            decompressProvider := some (env.inner.Open p fs3).2 },
                   holdDirs fs3 (HoldsScratch.scratch (env.inner.Open p fs3).2))))) := by
  unfold BitBucket.Open
  cases hu : c.getArchiveUrl with
  | error err => exact Or.inl ⟨err, rfl⟩
  | ok archiveUrl =>
    dsimp only
    cases hg : env.httpGet archiveUrl with
    | error err => exact Or.inl ⟨err, rfl⟩
    | ok resp =>
      dsimp only
      unfold fileio_TempDir
      cases ht : env.tempName with
      | error err => exact Or.inr (Or.inl ⟨err, rfl⟩)
      | ok d =>
        dsimp only
        by_cases hd : d = "" ∨ d ∈ fs.dirs
        · rw [if_pos hd]
          exact Or.inr (Or.inl ⟨_, rfl⟩)
        · rw [if_neg hd]
          simp only [not_or] at hd
          dsimp only
          refine Or.inr (Or.inr ?_)
          cases hc : os_Create env { fs with dirs := d :: fs.dirs } (env.Join d c.ArchiveName) with
          | error err =>
            exact ⟨d, { fs with dirs := d :: fs.dirs }, hd.1, hd.2, rfl, Or.inl ⟨err, rfl⟩⟩
          | ok fs2 =>
            have hfs2 : fs2.dirs = d :: fs.dirs := by
              unfold os_Create at hc
              split at hc
              · cases hc
              · injection hc with hc
                rw [← hc]; rfl
            dsimp only [io_Copy]
            cases hce : resp.copyErr with
            | some err =>
              exact ⟨d, fs2.write (env.Join d c.ArchiveName) resp.body, hd.1, hd.2, hfs2,
                Or.inl ⟨err, rfl⟩⟩
            | none =>
              dsimp only
              cases hdec : env.Decompress (env.Join d c.ArchiveName) with
              | error err =>
                exact ⟨d, fs2.write (env.Join d c.ArchiveName) resp.body, hd.1, hd.2, hfs2,
                  Or.inr (Or.inl ⟨err, rfl⟩)⟩
              | ok p =>
                exact ⟨d, fs2.write (env.Join d c.ArchiveName) resp.body, hd.1, hd.2, hfs2,
                  Or.inr (Or.inr ⟨p, hdec, rfl⟩)⟩

theorem length_pos_iff_ne_empty (s : String) : s.length > 0 ↔ s ≠ "" := by
  cases s with
  | mk d =>
    cases d with
    | nil => simp [String.length]
    | cons a l =>
      simp only [String.length, List.length_cons, gt_iff_lt, Nat.zero_lt_succ, ne_eq, true_iff]
      intro h
      have := congrArg String.data h
      simp at this

/-- What `Close` leaves behind. -/
theorem BitBucket.Close_eq {σ : Type} [HoldsScratch σ] (env : Env σ) (c : BitBucket σ)
    (fs : FS) :
    c.Close env fs
      = (none,
         { c with decompressProvider := none, tmpDir := "",
                  archivePath := if c.tmpDir = "" then c.archivePath else "" },
         if c.tmpDir = "" then afterInnerClose c fs
         else os_RemoveAll (afterInnerClose c fs) c.tmpDir) := by
  unfold BitBucket.Close afterInnerClose
  by_cases ht : c.tmpDir = ""
  · have hl : ¬ (c.tmpDir.length > 0) := by rw [length_pos_iff_ne_empty]; simp [ht]
    cases hp : c.decompressProvider with
    | none =>
      simp only [hl, if_false, ht, if_true]
      cases c
      simp_all
    | some p =>
      simp only [hl, if_false, ht, if_true]
      cases c
      simp_all
  · have hl : c.tmpDir.length > 0 := by rw [length_pos_iff_ne_empty]; exact ht
    cases hp : c.decompressProvider with
    | none => simp only [hl, if_true, ht, if_false, hp]
    | some p => simp only [hl, if_true, ht, if_false]

/-- The invariant of the alternating sequences: with an empty `tmpDir` the `archivePath`
is empty and no provider is held, and a recorded temp directory that is still on disk is
the current one or a scratch directory of the provider held now. -/
theorem Alternating.invariant {σ : Type} [HoldsScratch σ] {c : BitBucket σ} {fs : FS}
    {created : List String} (h : Alternating c fs created) :
    (c.tmpDir = "" → c.archivePath = "" ∧ c.decompressProvider = none)
    ∧ ∀ d ∈ created, d ≠ "" → d ∈ fs.dirs →
        d = c.tmpDir ∨ ∃ p, c.decompressProvider = some p ∧ d ∈ HoldsScratch.scratch p := by
  induction h with
  | fresh url archive fs => simp [BitBucket.mk0]
  | afterOpen env c fs created _ hempty ih =>
    obtain ⟨ih1, ih2⟩ := ih
    have hnone : c.decompressProvider = none := (ih1 hempty).2
    have hold : ∀ d ∈ created, d ≠ "" → d ∉ fs.dirs := by
      intro d hd hne hmem
      rcases ih2 d hd hne hmem with h1 | ⟨p, hp, _⟩
      · exact hne (h1.trans hempty)
      · rw [hnone] at hp; cases hp
    rcases BitBucket.Open_cases env c fs with ⟨err, he⟩ | ⟨err, he⟩ | ⟨d, fs3, hd1, hd2, hd3, hc⟩
    · rw [he]
      refine ⟨ih1, ?_⟩
      intro x hx hne hmem
      simp only [List.mem_cons] at hx
      rcases hx with hx | hx
      · exact Or.inl hx
      · exact absurd hmem (hold x hx hne)
    · rw [he]
      refine ⟨fun _ => ⟨(ih1 hempty).1, hnone⟩, ?_⟩
      intro x hx hne hmem
      simp only [List.mem_cons] at hx
      rcases hx with hx | hx
      · exact Or.inl hx
      · exact absurd hmem (hold x hx hne)
    · have hfs3 : ∀ x ∈ created, x ≠ "" → x ∈ fs3.dirs → x = d := by
        intro x hx hne hmem
        rw [hd3] at hmem
        simp only [List.mem_cons] at hmem
        rcases hmem with hm | hm
        · exact hm
        · exact absurd hm (hold x hx hne)
      rcases hc with ⟨err, he⟩ | ⟨err, he⟩ | ⟨p, _, he⟩
      · rw [he]
        refine ⟨fun h0 => absurd h0 hd1, ?_⟩
        intro x hx hne hmem
        simp only [List.mem_cons] at hx
        rcases hx with hx | hx
        · exact Or.inl hx
        · exact Or.inl (hfs3 x hx hne hmem)
      · rw [he]
        refine ⟨fun h0 => absurd h0 hd1, ?_⟩
        intro x hx hne hmem
        simp only [List.mem_cons] at hx
        rcases hx with hx | hx
        · exact Or.inl hx
        · exact Or.inl (hfs3 x hx hne hmem)
      · rw [he]
        refine ⟨fun h0 => absurd h0 hd1, ?_⟩
        intro x hx hne hmem
        simp only [List.mem_cons] at hx
        rcases hx with hx | hx
        · exact Or.inl hx
        · rcases (dirs_holdDirs _ _ x).1 hmem with hm | hm
          · exact Or.inr ⟨_, rfl, hm⟩
          · exact Or.inl (hfs3 x hx hne hm)
  | afterClose env c fs created _ ih =>
    obtain ⟨ih1, ih2⟩ := ih
    rw [BitBucket.Close_eq]
    dsimp only
    constructor
    · intro _
      by_cases ht : c.tmpDir = ""
      · simp [ht, (ih1 ht).1]
      · simp [ht]
    · intro x hx hne hmem
      exfalso
      have hin : x ∈ (afterInnerClose c fs).dirs := by
        by_cases ht : c.tmpDir = ""
        · simpa only [ht, if_true] using hmem
        · simp only [ht, if_false] at hmem
          exact dirs_RemoveAll_subset _ _ _ hmem
      have hfs : x ∈ fs.dirs := by
        unfold afterInnerClose at hin
        cases hp : c.decompressProvider with
        | none => simpa only [hp] using hin
        | some p =>
          simp only [hp] at hin
          exact dirs_releaseDirs_subset _ _ _ hin
      rcases ih2 x hx hne hfs with h1 | ⟨p, hp, hs⟩
      · have ht : ¬ c.tmpDir = "" := fun e => hne (h1.trans e)
        simp only [ht, if_false] at hmem
        rw [h1] at hmem
        exact not_mem_dirs_RemoveAll _ _ hmem
      · unfold afterInnerClose at hin
        simp only [hp] at hin
        exact not_mem_dirs_releaseDirs fs _ x hs hin

/-! ## Claims on `Open` and `Close` -/

/-- C4 (as the code has it): `Open` has no check for a handle that is already open. A call
of `Open` that returns nil, on an open handle as on a closed one, has created a new temp
directory `d` and run the inner provider's `Open`: `tmpDir`, `archivePath` and
`decompressProvider` are those of the new download, and the directories on disk are
those that were there before, `d`, and the scratch directories of the new inner
provider. A temp directory of an earlier `Open` is still on disk and the handle no longer
refers to it. -/
theorem C4_Open_again_creates_another_temp_directory (σ : Type) [HoldsScratch σ]
    (env : Env σ) (c : BitBucket σ) (fs : FS) (hnil : (c.Open env fs).1 = none) :
    ∃ d q fs3, d ≠ "" ∧ d ∉ fs.dirs ∧ fs3.dirs = d :: fs.dirs
      ∧ env.Decompress (env.Join d c.ArchiveName) = .ok q
      ∧ (env.inner.Open q fs3).1 = none
      ∧ (c.Open env fs).2.2 = holdDirs fs3 (HoldsScratch.scratch (env.inner.Open q fs3).2)
      ∧ (∀ x, x ∈ (c.Open env fs).2.2.dirs
          ↔ x ∈ HoldsScratch.scratch (env.inner.Open q fs3).2 ∨ x = d ∨ x ∈ fs.dirs)
      ∧ (c.Open env fs).2.1.tmpDir = d
      ∧ (c.Open env fs).2.1.archivePath = env.Join d c.ArchiveName
      ∧ (c.Open env fs).2.1.decompressProvider = some (env.inner.Open q fs3).2
      ∧ (c.tmpDir ∈ fs.dirs →
          c.tmpDir ∈ (c.Open env fs).2.2.dirs ∧ (c.Open env fs).2.1.tmpDir ≠ c.tmpDir) := by
  rcases BitBucket.Open_cases env c fs with ⟨e, he⟩ | ⟨e, he⟩ | ⟨d, fs3, hd1, hd2, hd3, hc⟩
  · rw [he] at hnil; cases hnil
  · rw [he] at hnil; cases hnil
  · rcases hc with ⟨e, he⟩ | ⟨e, he⟩ | ⟨p, hp, he⟩
    · rw [he] at hnil; cases hnil
    · rw [he] at hnil; cases hnil
    · rw [he] at hnil ⊢
      have hmem : ∀ x, x ∈ (holdDirs fs3 (HoldsScratch.scratch (env.inner.Open p fs3).2)).dirs
          ↔ x ∈ HoldsScratch.scratch (env.inner.Open p fs3).2 ∨ x = d ∨ x ∈ fs.dirs := by
        intro x
        rw [dirs_holdDirs, hd3, List.mem_cons]
      refine ⟨d, p, fs3, hd1, hd2, hd3, hp, hnil, rfl, hmem, rfl, rfl, rfl, ?_⟩
      intro hin
      refine ⟨(hmem _).2 (Or.inr (Or.inr hin)), ?_⟩
      intro heq
      have heq2 : d = c.tmpDir := heq
      rw [heq2] at hd2
      exact hd2 hin

theorem C4_witness :
    openedOnce.2.1.decompressProvider = some demoArchive
    ∧ (openedOnce.2.1.Open secondEnv openedOnce.2.2).1 = none
    ∧ ∃ d, d ∉ openedOnce.2.2.dirs
      ∧ d ∈ (openedOnce.2.1.Open secondEnv openedOnce.2.2).2.2.dirs
      ∧ (openedOnce.2.1.Open secondEnv openedOnce.2.2).2.1.tmpDir = d := by
  refine ⟨by decide, by decide, ?_⟩
  obtain ⟨d, _, _, _, h2, _, _, _, _, hmem, htmp, _⟩ :=
    C4_Open_again_creates_another_temp_directory MemArchive secondEnv
      openedOnce.2.1 openedOnce.2.2 (by decide)
  exact ⟨d, h2, (hmem d).2 (Or.inr (Or.inl rfl)), htmp⟩

/-- C4 fails as stated: a second `Open` on an open handle is not a no-op. After a first
`Open` with temp directory `/tmp/rocket-update1`, a second `Open` creates
`/tmp/rocket-update2`, points `tmpDir` and `archivePath` to it, its inner provider
unpacks into a directory of its own, and the directory of the first `Open` is still on
disk. -/
theorem C4_counterexample :
    openedOnce.1 = none
    ∧ openedOnce.2.1.decompressProvider = some demoArchive
    ∧ openedOnce.2.1.tmpDir = "/tmp/rocket-update1"
    ∧ openedOnce.2.1.archivePath = "/tmp/rocket-update1/project.zip"
    ∧ openedOnce.2.2.dirs = ["/tmp/rocket-update1"]
    ∧ openedTwice.1 = none
    ∧ openedTwice.2.1.tmpDir = "/tmp/rocket-update2"
    ∧ openedTwice.2.1.archivePath = "/tmp/rocket-update2/project.zip"
    ∧ openedTwice.2.2.dirs
        = ["/tmp/rocket-update-unpacked", "/tmp/rocket-update2", "/tmp/rocket-update1"] := by
  refine ⟨?_, ?_, ?_, ?_, ?_, ?_, ?_, ?_, ?_⟩ <;> decide

/-- C5 (as the code has it): for every state of a handle, `Close` returns nil, and
afterwards `decompressProvider` is nil, `tmpDir` is empty, `Walk` returns
`ErrNotOpenned`, the temp directory that `tmpDir` named is not on disk, and a second
`Close` returns nil and changes nothing. When the state was reached by `Open` and
`Close` calls in which every `Open` was made with an empty `tmpDir`, `archivePath` is
empty too and no temp directory created by an earlier `Open` remains on disk. -/
theorem C5_Close_releases_the_current_temp_directory (σ : Type) [HoldsScratch σ]
    (env env2 : Env σ) (c : BitBucket σ) (fs : FS) :
    (c.Close env fs).1 = none
    ∧ (c.Close env fs).2.1.decompressProvider = none
    ∧ (c.Close env fs).2.1.tmpDir = ""
    ∧ (∀ (τ : Type) (walkFn : WalkFunc τ) (t : τ),
        (c.Close env fs).2.1.Walk env2 τ walkFn t
          = (some Error.ErrNotOpenned, (c.Close env fs).2.1, t))
    ∧ (c.tmpDir ≠ "" → c.tmpDir ∉ (c.Close env fs).2.2.dirs)
    ∧ (c.Close env fs).2.1.Close env2 (c.Close env fs).2.2
        = (none, (c.Close env fs).2.1, (c.Close env fs).2.2)
    ∧ ∀ created, Alternating c fs created →
        (c.Close env fs).2.1.archivePath = ""
        ∧ ∀ d ∈ created, d ≠ "" → d ∉ (c.Close env fs).2.2.dirs := by
  refine ⟨?_, ?_, ?_, ?_, ?_, ?_, ?_⟩
  · rw [BitBucket.Close_eq]
  · rw [BitBucket.Close_eq]
  · rw [BitBucket.Close_eq]
  · intro τ walkFn t
    rw [BitBucket.Close_eq]
    simp [BitBucket.Walk]
  · intro hne
    rw [BitBucket.Close_eq]
    simp only [hne, if_false]
    exact not_mem_dirs_RemoveAll _ c.tmpDir
  · rw [BitBucket.Close_eq env2, BitBucket.Close_eq env]
    simp [afterInnerClose]
  · intro created hreach
    have hinv := (Alternating.afterClose env c fs created hreach).invariant
    have ht : (c.Close env fs).2.1.tmpDir = "" := by rw [BitBucket.Close_eq]
    have hp : (c.Close env fs).2.1.decompressProvider = none := by rw [BitBucket.Close_eq]
    refine ⟨(hinv.1 ht).1, ?_⟩
    intro d hd hne hmem
    rcases hinv.2 d hd hne hmem with h1 | ⟨p, hp2, _⟩
    · exact hne (h1.trans ht)
    · rw [hp] at hp2; cases hp2

theorem C5_witness :
    Alternating openedOnce.2.1 openedOnce.2.2 ["/tmp/rocket-update1"]
    ∧ (openedOnce.2.1.Close firstEnv openedOnce.2.2).1 = none
    ∧ (openedOnce.2.1.Close firstEnv openedOnce.2.2).2.1.archivePath = ""
    ∧ ∀ d ∈ ["/tmp/rocket-update1"], d ≠ "" →
        d ∉ (openedOnce.2.1.Close firstEnv openedOnce.2.2).2.2.dirs :=
  have hreach : Alternating openedOnce.2.1 openedOnce.2.2 ["/tmp/rocket-update1"] :=
    Alternating.afterOpen firstEnv demoHandle emptyFS []
      (Alternating.fresh _ _ emptyFS) rfl
  have h := C5_Close_releases_the_current_temp_directory MemArchive firstEnv firstEnv
    openedOnce.2.1 openedOnce.2.2
  ⟨hreach, h.1, (h.2.2.2.2.2.2 _ hreach).1, (h.2.2.2.2.2.2 _ hreach).2⟩

/-- C5 fails as stated for sequences with two `Open` calls in a row: after `Open`, `Open`,
`Close` the temp directory of the first `Open` is still on disk. -/
theorem C5_counterexample :
    Reachable openedTwice.2.1 openedTwice.2.2 ["/tmp/rocket-update2", "/tmp/rocket-update1"]
    ∧ "/tmp/rocket-update1" ∈ (openedTwice.2.1.Close secondEnv openedTwice.2.2).2.2.dirs := by
  constructor
  · exact Reachable.afterOpen secondEnv openedOnce.2.1 openedOnce.2.2 ["/tmp/rocket-update1"]
      (Reachable.afterOpen firstEnv demoHandle emptyFS [] (Reachable.fresh _ _ emptyFS))
  · decide

/-! ## Lemmas on paths and renames -/

theorem append_eq_append_iff_right (exe a b : String) : exe ++ a = exe ++ b ↔ a = b := by
  constructor
  · intro h
    have hd := congrArg String.data h
    simp only [String.data_append, List.append_cancel_left_eq] at hd
    exact String.ext hd
  · intro h; rw [h]

theorem append_ne_self (exe a : String) (h : a ≠ "") : exe ++ a ≠ exe := by
  intro he
  have hd := congrArg String.data he
  simp only [String.data_append, List.append_right_eq_self] at hd
  exact h (String.ext hd)

theorem old_generation_ne_new (exe t : String) : exe ++ ".old" ++ "." ++ t ≠ exe ++ ".new" := by
  intro he
  have hd := congrArg String.data he
  simp [String.data_append] at hd

theorem old_generation_ne_self (exe t : String) : exe ++ ".old" ++ "." ++ t ≠ exe := by
  intro he
  have hd := congrArg String.data he
  simp [String.data_append] at hd

theorem FS.rename_spec (fs fs2 : FS) (a b : String) (h : fs.rename a b = some fs2) :
    ∃ data, fs.read a = some data ∧ fs2.read b = some data
      ∧ ∀ q, q ≠ a → q ≠ b → fs2.read q = fs.read q := by
  unfold FS.rename at h
  cases hr : fs.read a with
  | none => simp [hr] at h
  | some data =>
    simp only [hr, Option.some.injEq] at h
    subst h
    refine ⟨data, rfl, FS.read_write_same _ _ _, ?_⟩
    intro q hqa hqb
    rw [FS.read_write_ne _ b q data hqb, FS.read_remove_ne _ a q hqa]

theorem FS.rename_isSome (fs : FS) (a b : String) (data : Bytes) (h : fs.read a = some data) :
    ∃ fs2, fs.rename a b = some fs2 := by
  unfold FS.rename
  simp [h]

theorem BackupOld_spec (fs fs2 : FS) (exe : String) (h : BackupOld fs exe = some fs2) :
    ∃ data, fs.read exe = some data ∧ fs2.read (exe ++ ".old") = some data
      ∧ fs2.read (exe ++ ".new") = fs.read (exe ++ ".new") := by
  unfold BackupOld at h
  have hne1 : exe ++ ".new" ≠ exe := append_ne_self exe ".new" (by decide)
  have hne2 : exe ++ ".new" ≠ exe ++ ".old" := by
    rw [Ne, append_eq_append_iff_right]; decide
  have hne3 : exe ≠ exe ++ ".old" := fun e => append_ne_self exe ".old" (by decide) e.symm
  have hkept : ∀ fsk : FS, fsk.read exe = fs.read exe →
      fsk.read (exe ++ ".new") = fs.read (exe ++ ".new") →
      fsk.rename exe (exe ++ ".old") = some fs2 →
      ∃ data, fs.read exe = some data ∧ fs2.read (exe ++ ".old") = some data
        ∧ fs2.read (exe ++ ".new") = fs.read (exe ++ ".new") := by
    intro fsk h1 h2 h3
    obtain ⟨data, hd1, hd2, hd3⟩ := FS.rename_spec _ _ _ _ h3
    refine ⟨data, h1 ▸ hd1, hd2, ?_⟩
    rw [hd3 _ hne1 hne2, h2]
  by_cases hex : fs.fileExists (exe ++ ".old") = true
  · simp only [hex, if_true] at h
    cases hg : freeGeneration fs (exe ++ ".old") with
    | none => simp [hg] at h
    | some n =>
      simp only [hg, Option.bind] at h
      cases hrn : fs.rename (exe ++ ".old") (exe ++ ".old" ++ "." ++ toString n) with
      | none => simp [hrn] at h
      | some fsk =>
        simp only [hrn] at h
        obtain ⟨_, _, _, hk⟩ := FS.rename_spec _ _ _ _ hrn
        refine hkept fsk ?_ ?_ h
        · exact hk exe hne3 (fun e => old_generation_ne_self exe _ e.symm)
        · exact hk _ hne2 (fun e => old_generation_ne_new exe _ e.symm)
  · simp only [hex, if_false, Option.bind] at h
    exact hkept fs rfl rfl h

/-! ## Claims on the update engine -/

/-- What an `Update` that reports `Updated` has done to the disk. -/
theorem Updater.Update_spec (env : UpdaterEnv) (u : Updater) (fs : FS)
    (hupd : (u.Update env fs).1 = .Updated) :
    ∃ exe bin old, env.executable = .ok exe ∧ env.newBinary = .ok bin
      ∧ fs.read exe = some old
      ∧ (u.Update env fs).2.2.read exe = some bin
      ∧ (u.Update env fs).2.2.read (exe ++ ".old") = some old := by
  unfold Updater.Update at hupd ⊢
  cases hcan : u.CanUpdate env with
  | error err => simp [hcan] at hupd
  | ok b =>
    cases b with
    | false => simp [hcan] at hupd
    | true =>
      cases hopen : env.openErr with
      | some err => simp [hcan, hopen] at hupd
      | none =>
        cases hver : env.verifyErr with
        | some err => simp [hcan, hopen, hver] at hupd
        | none =>
          cases hexe : env.executable with
          | error err => simp [hcan, hopen, hver, hexe] at hupd
          | ok exe =>
            cases hbin : env.newBinary with
            | error err => simp [hcan, hopen, hver, hexe, hbin] at hupd
            | ok bin =>
              simp only [hcan, hopen, hver, hexe, hbin] at hupd ⊢
              have hstage : checksum env (fs.write (exe ++ ".new") bin) (exe ++ ".new")
                  = some (env.sha256 bin) := by
                simp [checksum, FS.read_write_same]
              simp only [hstage, ne_eq, not_true_eq_false, if_false] at hupd ⊢
              cases hback : BackupOld (fs.write (exe ++ ".new") bin) exe with
              | none => simp [hback] at hupd
              | some fs2 =>
                simp only [hback] at hupd ⊢
                cases hprom : fs2.rename (exe ++ ".new") exe with
                | none => simp [hprom] at hupd
                | some fs3 =>
                  simp only [hprom]
                  have hne1 : exe ≠ exe ++ ".new" :=
                    fun e => append_ne_self exe ".new" (by decide) e.symm
                  have hne2 : exe ++ ".old" ≠ exe ++ ".new" := by
                    rw [Ne, append_eq_append_iff_right]; decide
                  have hne3 : exe ++ ".old" ≠ exe := append_ne_self exe ".old" (by decide)
                  obtain ⟨old, ho1, ho2, ho3⟩ := BackupOld_spec _ _ _ hback
                  rw [FS.read_write_ne _ _ _ _ hne1] at ho1
                  rw [FS.read_write_same] at ho3
                  obtain ⟨data, hd1, hd2, hd3⟩ := FS.rename_spec _ _ _ _ hprom
                  rw [ho3] at hd1
                  injection hd1 with hd1
                  subst hd1
                  refine ⟨exe, bin, old, rfl, rfl, ho1, hd2, ?_⟩
                  rw [hd3 _ hne2 hne3, ho2]

/-- C8 (as the model of the specification has it): for every installation where `Update`
returns `Updated`, the executable afterwards holds the bytes of the executable that the
release ships, so its SHA-256 differs from the one before exactly when the two binaries
hash differently; a following `Rollback` returns no error and leaves the executable with
exactly the SHA-256 it had before the update. -/
theorem C8_rollback_restores_the_checksum (env : UpdaterEnv) (u : Updater) (fs : FS)
    (hupd : (u.Update env fs).1 = .Updated) :
    ∃ exe bin old, env.executable = .ok exe ∧ env.newBinary = .ok bin
      ∧ fs.read exe = some old
      ∧ (u.Update env fs).2.2.read exe = some bin
      ∧ (checksum env (u.Update env fs).2.2 exe ≠ checksum env fs exe
          ↔ env.sha256 bin ≠ env.sha256 old)
      ∧ (Updater.Rollback env (u.Update env fs).2.2).1 = none
      ∧ checksum env (Updater.Rollback env (u.Update env fs).2.2).2 exe
          = checksum env fs exe := by
  obtain ⟨exe, bin, old, hexe, hbin, hold, hnew, hbak⟩ := Updater.Update_spec env u fs hupd
  refine ⟨exe, bin, old, hexe, hbin, hold, hnew, ?_, ?_⟩
  · simp [checksum, hnew, hold]
  · have hne1 : exe ++ ".old" ≠ exe := append_ne_self exe ".old" (by decide)
    have hne2 : exe ++ ".old" ≠ exe ++ ".new.discarded" := by
      rw [Ne, append_eq_append_iff_right]; decide
    obtain ⟨fs4, h4⟩ := FS.rename_isSome _ exe (exe ++ ".new.discarded") bin hnew
    obtain ⟨_, _, _, h4c⟩ := FS.rename_spec _ _ _ _ h4
    have hold4 : fs4.read (exe ++ ".old") = some old := by
      rw [h4c _ hne1 hne2, hbak]
    obtain ⟨fs5, h5⟩ := FS.rename_isSome fs4 (exe ++ ".old") exe old hold4
    obtain ⟨d5, h5a, h5b, _⟩ := FS.rename_spec _ _ _ _ h5
    rw [hold4] at h5a
    injection h5a with h5a
    subst h5a
    have hexists : ((u.Update env fs).2.2).fileExists (exe ++ ".old") = true := by
      simp [FS.fileExists, hbak]
    have hroll : Updater.Rollback env (u.Update env fs).2.2 = (none, fs5) := by
      unfold Updater.Rollback
      simp [hexe, hexists, h4, h5]
    rw [hroll]
    exact ⟨rfl, by simp [checksum, h5b, hold]⟩

theorem C8_witness :
    ((⟨"v0.1"⟩ : Updater).Update (demoUpdaterEnv [2, 2]) ⟨[], [("/opt/app/tool", [1, 1])]⟩).1
        = .Updated
    ∧ (Updater.Rollback (demoUpdaterEnv [2, 2])
        ((⟨"v0.1"⟩ : Updater).Update (demoUpdaterEnv [2, 2])
          ⟨[], [("/opt/app/tool", [1, 1])]⟩).2.2).1 = none
    ∧ checksum (demoUpdaterEnv [2, 2])
        (Updater.Rollback (demoUpdaterEnv [2, 2])
          ((⟨"v0.1"⟩ : Updater).Update (demoUpdaterEnv [2, 2])
            ⟨[], [("/opt/app/tool", [1, 1])]⟩).2.2).2 "/opt/app/tool"
        = checksum (demoUpdaterEnv [2, 2]) ⟨[], [("/opt/app/tool", [1, 1])]⟩ "/opt/app/tool" := by
  refine ⟨by decide, ?_⟩
  obtain ⟨exe, bin, old, hexe, _, _, _, _, hroll, hsum⟩ :=
    C8_rollback_restores_the_checksum (demoUpdaterEnv [2, 2]) ⟨"v0.1"⟩
      ⟨[], [("/opt/app/tool", [1, 1])]⟩ (by decide)
  have hx : exe = "/opt/app/tool" := by
    simp only [demoUpdaterEnv, Except.ok.injEq] at hexe
    exact hexe.symm
  subst hx
  exact ⟨hroll, hsum⟩

/-- C8 fails as stated: the release `v1.0` is newer than the embedded `v0.1` and `Update`
returns `Updated`, but the shipped executable has the bytes of the installed one, so the
SHA-256 of the executable after the update equals the one before. -/
theorem C8_counterexample :
    ¬ (∀ (env : UpdaterEnv) (u : Updater) (fs : FS) (exe : String),
        env.executable = .ok exe → (u.Update env fs).1 = .Updated →
        checksum env (u.Update env fs).2.2 exe ≠ checksum env fs exe) := by
  intro hall
  exact hall (demoUpdaterEnv [1, 1]) ⟨"v0.1"⟩ ⟨[], [("/opt/app/tool", [1, 1])]⟩ "/opt/app/tool"
    rfl (by decide) (by decide)

end RocketUpdate
